import Mathlib

/-!
# Encrypted file storage (`storage/storage.go`)

A shallow embedding of package `storage`: the container format
`version ‖ salt ‖ nonce ‖ secretbox`, and the four operations `Create`, `Open`,
`State.Save` and `Rekey`, written as state-passing functions over an explicit
`World` (file system, entropy stream, schedule of I/O faults).

The cryptographic primitives (`argon2.IDKey`, `secretbox.Seal`,
`secretbox.Open`) are library code outside the package; they are taken as a
parameter `Crypto`, and every property of them that a theorem relies on is an
explicit hypothesis.
-/

set_option maxRecDepth 100000

namespace Storage

/-! ## Data model -/

/-- One byte. -/
abbrev Byte := Fin 256

/-- Go's fixed-size array `[n]byte`. -/
abbrev Bytes (n : Nat) := Mathlib.Vector Byte n

/-- Version of storage format (`const Version = 0x01`). -/
def Version : Byte := 0x01

/-- Go's `copy(dst[:], src)` into a zero-initialised `[n]byte`, and equally a
read of `src` into such an array: the first `min n (len src)` bytes are
overwritten, the others stay zero. -/
def fill (n : Nat) (src : List Byte) : Bytes n :=
  ⟨src.take n ++ List.replicate (n - src.length) 0, by
    simp only [List.length_append, List.length_take, List.length_replicate]; omega⟩

/-- Errors returned by the package and by the system calls it makes. -/
inductive Error where
  /-- "storage: file '%s' exists already" -/
  | fileExists (filename : String)
  /-- "storage: read version %d incompatible with expected version %d" -/
  | versionIncompatible (got expected : Byte)
  /-- "storage: cannot decrypt '%s'" -/
  | cannotDecrypt (filename : String)
  /-- Value `io.EOF`: a read at end of file. -/
  | EOF
  /-- Value `io.ErrUnexpectedEOF`: `io.ReadFull` got fewer bytes than asked. -/
  | ErrUnexpectedEOF
  /-- A path that names no file (`os.Open`, `os.Remove`, `os.Rename`). -/
  | notExist (path : String)
  /-- An I/O error injected by the fault schedule (disk full, EIO, ...). -/
  | fault
  deriving DecidableEq, Repr

/-- State of storage (for later save operations). -/
structure State where
  /-- original filename -/
  filename : String
  /-- salt for KDF -/
  salt : Bytes 32
  /-- nonce for secretbox -/
  nonce : Bytes 24
  /-- derived key -/
  key : Bytes 32
  deriving DecidableEq

/-- The library primitives the package calls. -/
structure Crypto where
  /-- Function `argon2.IDKey(password, salt, time, memory, threads, keyLen)`. -/
  IDKey : List Byte → List Byte → Nat → Nat → Nat → Nat → List Byte
  /-- Function `secretbox.Seal(nil, message, &nonce, &key)`. -/
  Seal : List Byte → Bytes 24 → Bytes 32 → List Byte
  /-- Function `secretbox.Open(nil, box, &nonce, &key)`; `none` is `(nil, false)`. -/
  Open : List Byte → Bytes 24 → Bytes 32 → Option (List Byte)

/-- The world the package runs in. -/
structure World where
  /-- The file system: the content of the file at each path, if there is one. -/
  files : String → Option (List Byte)
  /-- The bytes `crypto/rand.Reader` will deliver, in order. -/
  rand : List Byte
  /-- The fault schedule: each call of `os.Create`, `Write`, `Close`,
  `os.Remove`, `os.Rename`, `os.Open`, `Read` and `ioutil.ReadAll` takes the
  head; `true` makes that call fail with an I/O error. An empty schedule is no
  fault. (`os.Stat` depends on the file system only.) -/
  faults : List Bool

/-- The same world with no I/O fault pending. -/
def World.calm (w : World) : World := { w with faults := [] }

/-- The same world with fault schedule `φ`. -/
def World.withFaults (w : World) (φ : List Bool) : World := { w with faults := φ }

/-- The file system with the file at `path` set to `v` (`none`: no file). -/
def setFile (fs : String → Option (List Byte)) (path : String) (v : Option (List Byte)) :
    String → Option (List Byte) :=
  fun p => if p = path then v else fs p

/-! ## System calls -/

/-- Take the next entry of the fault schedule. -/
def World.fault (w : World) : Bool × World :=
  match w.faults with
  | [] => (false, w)
  | b :: bs => (b, { w with faults := bs })

/-- Call `os.Stat(name)`: `true` when `err == nil`, that is when the file exists. -/
def osStat (name : String) (w : World) : Bool := (w.files name).isSome

/-- Call `io.ReadFull(rand.Reader, buf)` with `len(buf) = n`. -/
def randRead (n : Nat) (w : World) : (List Byte × Option Error) × World :=
  if n ≤ w.rand.length then
    ((w.rand.take n, none), { w with rand := w.rand.drop n })
  else
    ((w.rand, some (if w.rand = [] then Error.EOF else Error.ErrUnexpectedEOF)),
      { w with rand := [] })

/-- Call `os.Create(name)`: creates or truncates the file. -/
def osCreate (name : String) (w : World) : Option Error × World :=
  match w.fault with
  | (true, w1) => (some Error.fault, w1)
  | (false, w1) => (none, { w1 with files := setFile w1.files name (some []) })

/-- Call `fp.Write(b)` on the file created at `name`: appends `b`. -/
def fileWrite (name : String) (b : List Byte) (w : World) : Option Error × World :=
  match w.fault with
  | (true, w1) => (some Error.fault, w1)
  | (false, w1) =>
    (none, { w1 with files := setFile w1.files name (some ((w1.files name).getD [] ++ b)) })

/-- Call `fp.Close()`. -/
def fileClose (w : World) : Option Error × World :=
  match w.fault with
  | (true, w1) => (some Error.fault, w1)
  | (false, w1) => (none, w1)

/-- Call `os.Remove(name)`: it can fail like any other call that changes the
file system, and then leaves the file in place. The package ignores its error
everywhere. -/
def osRemove (name : String) (w : World) : Option Error × World :=
  match w.fault with
  | (true, w1) => (some Error.fault, w1)
  | (false, w1) =>
    match w1.files name with
    | none => (some (Error.notExist name), w1)
    | some _ => (none, { w1 with files := setFile w1.files name none })

/-- Call `os.Rename(oldpath, newpath)`: atomically replaces `newpath`. -/
def osRename (oldpath newpath : String) (w : World) : Option Error × World :=
  match w.fault with
  | (true, w1) => (some Error.fault, w1)
  | (false, w1) =>
    match w1.files oldpath with
    | none => (some (Error.notExist oldpath), w1)
    | some content =>
      (none, { w1 with files := setFile (setFile w1.files oldpath none) newpath (some content) })

/-- Call `os.Open(name)`: the reader is the content still to be read. -/
def osOpen (name : String) (w : World) : (List Byte × Option Error) × World :=
  match w.fault with
  | (true, w1) => (([], some Error.fault), w1)
  | (false, w1) =>
    match w1.files name with
    | none => (([], some (Error.notExist name)), w1)
    | some content => ((content, none), w1)

/-- Call `fp.Read(buf)` with `len(buf) = n` on a reader with `rd` left: the bytes
read, the reader afterwards, and the error (`io.EOF` when nothing is left;
a short read is no error). -/
def fileRead (n : Nat) (rd : List Byte) (w : World) :
    (List Byte × List Byte × Option Error) × World :=
  match w.fault with
  | (true, w1) => (([], rd, some Error.fault), w1)
  | (false, w1) =>
    if rd = [] ∧ 0 < n then (([], rd, some Error.EOF), w1)
    else ((rd.take n, rd.drop n, none), w1)

/-- Call `ioutil.ReadAll(fp)`. -/
def ioutilReadAll (rd : List Byte) (w : World) : (List Byte × Option Error) × World :=
  match w.fault with
  | (true, w1) => (([], some Error.fault), w1)
  | (false, w1) => ((rd, none), w1)

/-! ## The package -/

/-- The key `Create` and `Open` derive:
`argon2.IDKey([]byte(passphrase), s.salt[:], 1, 64*1024, 4, 32)` copied into
`s.key`. -/
def deriveKey (c : Crypto) (passphrase : List Byte) (salt : Bytes 32) : Bytes 32 :=
  fill 32 (c.IDKey passphrase salt.toList 1 (64 * 1024) 4 32)

/-- Method `(s *State) save(w io.Writer, data []byte) error`, the writer being the
file created at `fp`. -/
def State.save (c : Crypto) (s : State) (fp : String) (data : List Byte) (w : World) :
    Option Error × World :=
  -- encrypt data
  let enc := c.Seal data s.nonce s.key
  -- write version byte
  match fileWrite fp [Version] w with
  | (some err, w1) => (some err, w1)
  | (none, w1) =>
  -- write salt
  match fileWrite fp s.salt.toList w1 with
  | (some err, w2) => (some err, w2)
  | (none, w2) =>
  -- write nonce
  match fileWrite fp s.nonce.toList w2 with
  | (some err, w3) => (some err, w3)
  | (none, w3) =>
  -- write encrypted data
  match fileWrite fp enc w3 with
  | (some err, w4) => (some err, w4)
  | (none, w4) => (none, w4)

/-- What `Create` returns: `(*State, error)`. -/
structure CreateResult where
  state : Option State
  err : Option Error
  deriving DecidableEq

/-- What `Open` returns: `(*State, []byte, error)`; a nil slice is `[]`. -/
structure OpenResult where
  state : Option State
  data : List Byte
  err : Option Error
  deriving DecidableEq

/-- Function `Create(filename, passphrase string, data []byte) (*State, error)`. -/
def Create (c : Crypto) (filename : String) (passphrase : List Byte) (data : List Byte)
    (w : World) : CreateResult × World :=
  -- make sure keyfile does not exist already
  if osStat filename w then (⟨none, some (Error.fileExists filename)⟩, w) else
  -- generate salt
  match randRead 32 w with
  | ((_, some err), w1) => (⟨none, some err⟩, w1)
  | ((salt, none), w1) =>
  -- generate nonce
  match randRead 24 w1 with
  | ((_, some err), w2) => (⟨none, some err⟩, w2)
  | ((nonce, none), w2) =>
  -- compute derived key from passphrase
  let s : State :=
    { filename := filename, salt := fill 32 salt, nonce := fill 24 nonce,
      key := deriveKey c passphrase (fill 32 salt) }
  -- open file
  match osCreate s.filename w2 with
  | (some err, w3) => (⟨none, some err⟩, w3)
  | (none, w3) =>
  -- save encrypted data
  match s.save c s.filename data w3 with
  | (some err, w4) => (⟨none, some err⟩, (osRemove s.filename (fileClose w4).2).2)
  | (none, w4) =>
  match fileClose w4 with
  | (some err, w5) => (⟨none, some err⟩, (osRemove s.filename w5).2)
  | (none, w5) => (⟨some s, none⟩, w5)

/-- The body of `Open` once `os.Open` has succeeded, `rd` being the reader. -/
def Open.body (c : Crypto) (filename : String) (passphrase : List Byte) (rd : List Byte)
    (w : World) : OpenResult × World :=
  -- read version byte
  match fileRead 1 rd w with
  | ((_, _, some err), w1) => (⟨none, [], some err⟩, w1)
  | ((version, rd1, none), w1) =>
  if (fill 1 version).head ≠ Version then
    (⟨none, [], some (Error.versionIncompatible (fill 1 version).head Version)⟩, w1)
  else
  -- read salt
  match fileRead 32 rd1 w1 with
  | ((_, _, some err), w2) => (⟨none, [], some err⟩, w2)
  | ((salt, rd2, none), w2) =>
  -- read nonce
  match fileRead 24 rd2 w2 with
  | ((_, _, some err), w3) => (⟨none, [], some err⟩, w3)
  | ((nonce, rd3, none), w3) =>
  -- derive key
  let s : State :=
    { filename := filename, salt := fill 32 salt, nonce := fill 24 nonce,
      key := deriveKey c passphrase (fill 32 salt) }
  -- read encrypted data
  match ioutilReadAll rd3 w3 with
  | ((_, some err), w4) => (⟨none, [], some err⟩, w4)
  | ((enc, none), w4) =>
  -- decrypt data
  match c.Open enc s.nonce s.key with
  | none => (⟨none, [], some (Error.cannotDecrypt filename)⟩, w4)
  | some data => (⟨some s, data, none⟩, w4)

/-- Function `Open(filename, passphrase string) (*State, []byte, error)`. -/
def Open (c : Crypto) (filename : String) (passphrase : List Byte) (w : World) :
    OpenResult × World :=
  -- open encrypted file
  match osOpen filename w with
  | ((_, some err), w1) => (⟨none, [], some err⟩, w1)
  | ((rd, none), w1) =>
    let r := Open.body c filename passphrase rd w1
    -- defer fp.Close()
    (r.1, (fileClose r.2).2)

/-- Method `(s *State) Save(data []byte) error`: save new data, overwriting old. -/
def State.Save (c : Crypto) (s : State) (data : List Byte) (w : World) :
    Option Error × World :=
  let tmpfile := s.filename ++ ".new"
  let w0 := (osRemove tmpfile w).2 -- ignore error
  -- open file
  match osCreate tmpfile w0 with
  | (some err, w1) => (some err, w1)
  | (none, w1) =>
  -- save encrypted data
  match s.save c tmpfile data w1 with
  | (some err, w2) => (some err, (osRemove tmpfile (fileClose w2).2).2)
  | (none, w2) =>
  -- write temp. file
  match fileClose w2 with
  | (some err, w3) => (some err, (osRemove tmpfile w3).2)
  | (none, w3) =>
  -- move temp. file in place
  osRename tmpfile s.filename w3

/-- Function `Rekey(filename, oldPassphrase, newPassphrase string) error`. -/
def Rekey (c : Crypto) (filename : String) (oldPassphrase newPassphrase : List Byte)
    (w : World) : Option Error × World :=
  match Open c filename oldPassphrase w with
  | (⟨_, _, some err⟩, w1) => (some err, w1)
  | (⟨_, data, none⟩, w1) =>
  let tmpfile := filename ++ ".new"
  let w2 := (osRemove tmpfile w1).2 -- ignore error
  match Create c tmpfile newPassphrase data w2 with
  | (⟨_, some err⟩, w3) => (some err, w3)
  | (⟨_, none⟩, w3) =>
  -- move temp. file in place
  osRename tmpfile filename w3

/-- The bytes of a container: version, salt, nonce, sealed payload. -/
def container (c : Crypto) (s : State) (data : List Byte) : List Byte :=
  [Version] ++ s.salt.toList ++ s.nonce.toList ++ c.Seal data s.nonce s.key

/-- The State `Create` builds when the entropy stream is `rand`: the first 32
bytes are the salt, the next 24 the nonce. -/
def freshState (c : Crypto) (filename : String) (passphrase : List Byte) (rand : List Byte) :
    State :=
  { filename := filename, salt := fill 32 (rand.take 32),
    nonce := fill 24 ((rand.drop 32).take 24),
    key := deriveKey c passphrase (fill 32 (rand.take 32)) }

/-! ## What the library primitives promise -/

/-- Modelled from the spec: the authenticated cipher (`secretbox`, library code
outside `src/`) opens what it sealed, "open(key, nonce, ciphertext) ->
plaintext", and "must tolerate an empty plaintext". -/
def Crypto.SealOpen (c : Crypto) : Prop :=
  ∀ (d : List Byte) (n : Bytes 24) (k : Bytes 32), c.Open (c.Seal d n k) n k = some d

/-- Modelled from the spec: the authenticated cipher (`secretbox`, library code
outside `src/`) provides "tamper-detection (forged or corrupted ciphertext is
rejected, never silently decrypted into garbage)": a sealed box in which one
byte has been replaced by another value does not open. -/
def Crypto.TamperEvident (c : Crypto) : Prop :=
  ∀ (d : List Byte) (n : Bytes 24) (k : Bytes 32) (i : Nat) (b : Byte),
    i < (c.Seal d n k).length → (c.Seal d n k)[i]? ≠ some b →
      c.Open ((c.Seal d n k).set i b) n k = none

/-- The fixed authentication-tag length, `secretbox.Overhead`. -/
def Overhead : Nat := 16

/-- Modelled from the spec: the authenticated cipher (`secretbox`, library code
outside `src/`) has "ciphertext length = plaintext length + fixed
authentication-tag length" and verifies the tag before returning plaintext, so
a box shorter than the tag does not open. -/
def Crypto.RejectsShort (c : Crypto) : Prop :=
  ∀ (box : List Byte) (n : Bytes 24) (k : Bytes 32), box.length < Overhead →
    c.Open box n k = none

/-! ## A small instance of the primitives

An unkeyed-checksum "cipher", used only to show that the hypotheses of the
theorems below can be met together and to run the package on concrete inputs. -/

/-- The 16-byte tag of the sample cipher: the sum of all bytes of message,
nonce and key, then fifteen zero bytes. -/
def sampleTag (msg : List Byte) (n : Bytes 24) (k : Bytes 32) : List Byte :=
  (msg.sum + n.toList.sum + k.toList.sum) :: List.replicate 15 0

/-- The sample primitives: the key is the first `keyLen` bytes of
`password ‖ salt` (zero-padded), a box is `tag ‖ message`. -/
def sampleCrypto : Crypto where
  IDKey := fun password salt _ _ _ keyLen => (fill keyLen (password ++ salt)).toList
  Seal := fun msg n k => sampleTag msg n k ++ msg
  Open := fun box n k =>
    if Overhead ≤ box.length ∧ box.take Overhead = sampleTag (box.drop Overhead) n k then
      some (box.drop Overhead)
    else none

/-- A sample entropy stream: the 112 bytes 0, 1, ..., 111 (enough for two
containers). -/
def sampleRand : List Byte := (List.range 112).map (fun i => Fin.ofNat i)

/-- A sample world: an empty file system, the sample entropy, no I/O fault. -/
def sampleWorld : World := { files := fun _ => none, rand := sampleRand, faults := [] }

/-- The nonce stored in a container file: bytes 33-56. -/
def storedNonce (content : List Byte) : List Byte := (content.drop 33).take 24

/-- A sample world with a file `"g"` whose version byte is 2, and faults
scheduled for the third and fourth checked system call. -/
def sampleBadVersionWorld : World :=
  { files := fun p => if p = "g" then some [2, 9, 9] else none, rand := [],
    faults := [false, false, true, true] }

/-- A sample world with a file `"h"` of 40 bytes: a version byte, a full salt
and 7 bytes of nonce. -/
def sampleShortWorld : World :=
  { files := fun p => if p = "h" then some (Version :: List.replicate 39 5) else none,
    rand := [], faults := [] }

/-- The bytes `content` are what a successful `Create(path, X, P)` left at
`path`, or what a successful `s.Save(P)` left there for a State `s` that a
successful `Create(path, X, _)` or `Open(path, X)` returned. -/
def WrittenBy (c : Crypto) (path : String) (X P : List Byte) (content : List Byte) : Prop :=
  (∃ w0, (Create c path X P w0).1.err = none ∧
      (Create c path X P w0).2.files path = some content) ∨
  (∃ s w0 w1,
      ((∃ P0, (Create c path X P0 w0).1 = ⟨some s, none⟩) ∨
        (∃ P0, (Open c path X w0).1 = ⟨some s, P0, none⟩)) ∧
      (s.Save c P w1).1 = none ∧ (s.Save c P w1).2.files path = some content)

/-! ## Save as a sequence of file-system steps -/

/-- One file-system step of the package: a system call that changes files. -/
inductive FsStep where
  /-- Call `os.Remove(name)`. -/
  | remove (name : String)
  /-- Call `os.Create(name)`. -/
  | create (name : String)
  /-- Call `fp.Write(b)` on the file created at `name`. -/
  | write (name : String) (b : List Byte)
  /-- Call `fp.Close()`. -/
  | close
  /-- Call `os.Rename(oldpath, newpath)`. -/
  | rename (oldpath newpath : String)

/-- The world after one step (the step's error, if any, is dropped). -/
def FsStep.run : FsStep → World → World
  | FsStep.remove name, w => (osRemove name w).2
  | FsStep.create name, w => (osCreate name w).2
  | FsStep.write name b, w => (fileWrite name b w).2
  | FsStep.close, w => (fileClose w).2
  | FsStep.rename oldpath newpath, w => (osRename oldpath newpath w).2

/-- The world after a sequence of steps, run in order. -/
def runSteps (steps : List FsStep) (w : World) : World :=
  steps.foldl (fun v st => st.run v) w

/-- The steps of `s.Save(data)` when nothing fails: remove temp, create temp,
write version, salt, nonce and ciphertext to temp, close, rename. -/
def State.SaveSteps (c : Crypto) (s : State) (data : List Byte) : List FsStep :=
  [ FsStep.remove (s.filename ++ ".new"),
    FsStep.create (s.filename ++ ".new"),
    FsStep.write (s.filename ++ ".new") [Version],
    FsStep.write (s.filename ++ ".new") s.salt.toList,
    FsStep.write (s.filename ++ ".new") s.nonce.toList,
    FsStep.write (s.filename ++ ".new") (c.Seal data s.nonce s.key),
    FsStep.close,
    FsStep.rename (s.filename ++ ".new") s.filename ]

/-- The container codec of the spec, `encode(version, salt, nonce, ciphertext)`:
the concatenation of the four fields, the version being `Version`. -/
def encode (salt : Bytes 32) (nonce : Bytes 24) (ciphertext : List Byte) : List Byte :=
  [Version] ++ salt.toList ++ nonce.toList ++ ciphertext

/-- The sample world after `Create("f", [1, 2, 3], [10, 20])`, with fault schedule `φ`. -/
def sampleStored (φ : List Bool) : World :=
  (Create sampleCrypto "f" [1, 2, 3] [10, 20] sampleWorld).2.withFaults φ

/-- Modelled from the spec: the authenticated cipher (`secretbox`, library code
outside `src/`) has "ciphertext length = plaintext length + fixed
authentication-tag length", the tag length being `secretbox.Overhead`. -/
def Crypto.SealLength (c : Crypto) : Prop :=
  ∀ (d : List Byte) (n : Bytes 24) (k : Bytes 32), (c.Seal d n k).length = d.length + Overhead

/-- Modelled from the spec: "authentication failure is the only way a wrong
passphrase is detected", and "open(path, Y) with Y ≠ X used at creation fails
with AuthenticationFailed": the key derivation (`argon2.IDKey`, library code
outside `src/`) tells the passphrase `X` apart, no other passphrase derives,
for `salt`, the key that `X` derives. This is a property of one passphrase and
one salt; derived keys have 32 bytes, so no key derivation has it for every
passphrase at once. -/
def Crypto.KeyOnlyFrom (c : Crypto) (X : List Byte) (salt : Bytes 32) : Prop :=
  ∀ Y : List Byte, Y ≠ X → deriveKey c Y salt ≠ deriveKey c X salt

/-- Modelled from the spec: the authenticated cipher (`secretbox`, library code
outside `src/`) "verifies the tag before returning plaintext" and fails alike
on "wrong key", "corrupted file" and "wrong nonce": the sealed `box` opens,
with `nonce`, under no key other than `key`. -/
def Crypto.OpensOnlyUnder (c : Crypto) (box : List Byte) (nonce : Bytes 24) (key : Bytes 32) :
    Prop :=
  ∀ k : Bytes 32, k ≠ key → c.Open box nonce k = none

/-- A second small instance of the primitives, one that tells keys and short
passphrases apart: the key is the first `keyLen` bytes of
`length ‖ password ‖ salt` (the length capped at 255), and a box is
`key ‖ message`. It hides nothing; it shows that the two promises above can be
met, and runs the package on concrete inputs. -/
def keyedCrypto : Crypto where
  IDKey := fun password salt _ _ _ keyLen =>
    (fill keyLen (⟨min password.length 255, by omega⟩ :: (password ++ salt))).toList
  Seal := fun msg _ k => k.toList ++ msg
  Open := fun box _ k => if box.take 32 = k.toList then some (box.drop 32) else none

/-- The State `s` mirrors the file at `s.filename` in the world `w`: the file
exists, its bytes 1-32 are `s.salt`, its bytes 33-56 are `s.nonce`, and its
bytes from 57 on open under `s.nonce` and `s.key`. -/
def State.Mirrors (c : Crypto) (s : State) (w : World) : Prop :=
  ∃ content P, w.files s.filename = some content ∧
    (content.drop 1).take 32 = s.salt.toList ∧
    (content.drop 33).take 24 = s.nonce.toList ∧
    c.Open (content.drop 57) s.nonce s.key = some P

/-- A sequence of `s.Save` calls with no other writer in between: each call
gets its payload and its own fault schedule and runs in the world the call
before left; `none` when one of the calls returns an error. -/
def State.SaveAll (c : Crypto) (s : State) : List (List Byte × List Bool) → World → Option World
  | [], w => some w
  | (data, φ) :: rest, w =>
    match s.Save c data (w.withFaults φ) with
    | (none, v) => State.SaveAll c s rest v
    | (some _, _) => none

end Storage

/-! # Persistent data (`config/config.go`) -/

namespace Config

/-- Settings dfines the global settings of a Mole instance. -/
structure Settings where
  /-- generated XMPP client resource -/
  Resource : String
  deriving DecidableEq

/-- Account defines a XMPP account. -/
structure Account where
  /-- own JID -/
  Username : String
  Password : String
  Contact : String
  deriving DecidableEq

/-- Contact defines a XMPP contact. -/
structure Contact where
  /-- JID of contact -/
  Remote : String
  /-- own JID, corresponds to an account -/
  Local : String
  deriving DecidableEq

/-- A Hill contains all data of a Mole instance. A slice is the list of its
elements; the nil slice is `[]`. -/
structure Hill where
  Settings : Settings
  Accounts : List Account
  Contacts : List Contact
  deriving DecidableEq

/-- Method `(h *Hill) LastAccount() *Account`. The returned pointer
`&h.Accounts[i]` is the index `i` into `h.Accounts`; `none` is nil. -/
def Hill.LastAccount (h : Hill) : Option Nat :=
  if h.Accounts = [] ∨ h.Accounts.length = 0 then none
  else some (h.Accounts.length - 1)

/-- The Account a pointer returned by `LastAccount` refers to. -/
def Hill.deref (h : Hill) (ptr : Option Nat) : Option Account :=
  match ptr with
  | none => none
  | some i => h.Accounts[i]?

/-- Statement `h.Accounts = append(h.Accounts, account)` of `accountAdd`. -/
def Hill.appendAccount (h : Hill) (account : Account) : Hill :=
  { h with Accounts := h.Accounts ++ [account] }

end Config

namespace Storage

/-! ## System calls: what success means -/

theorem setFile_same (fs : String → Option (List Byte)) (p : String) (v : Option (List Byte)) :
    setFile fs p v p = v := by
  simp [setFile]

theorem setFile_other (fs : String → Option (List Byte)) (p q : String) (v : Option (List Byte))
    (h : q ≠ p) : setFile fs p v q = fs q := by
  simp [setFile, h]

theorem setFile_setFile (fs : String → Option (List Byte)) (p : String)
    (u v : Option (List Byte)) : setFile (setFile fs p u) p v = setFile fs p v := by
  funext q
  by_cases h : q = p <;> simp [setFile, h]

theorem fault_files (w : World) : w.fault.2.files = w.files := by
  unfold World.fault
  split <;> rfl

theorem fault_rand (w : World) : w.fault.2.rand = w.rand := by
  unfold World.fault
  split <;> rfl

theorem fault_calm (w : World) (h : w.faults = []) : w.fault = (false, w) := by
  unfold World.fault
  rw [h]

theorem fileWrite_eq_ok {fp : String} {b : List Byte} {w w1 : World}
    (h : fileWrite fp b w = (none, w1)) :
    w1.files = setFile w.files fp (some ((w.files fp).getD [] ++ b)) ∧ w1.rand = w.rand := by
  unfold fileWrite at h
  have hf := fault_files w
  have hr := fault_rand w
  split at h
  · simp at h
  · rename_i w2 heq
    simp only [heq] at hf hr
    simp only [Prod.mk.injEq, true_and] at h
    subst h
    simp [hf, hr]

theorem osCreate_eq_ok {fp : String} {w w1 : World} (h : osCreate fp w = (none, w1)) :
    w1.files = setFile w.files fp (some []) ∧ w1.rand = w.rand := by
  unfold osCreate at h
  have hf := fault_files w
  have hr := fault_rand w
  split at h
  · simp at h
  · rename_i w2 heq
    simp only [heq] at hf hr
    simp only [Prod.mk.injEq, true_and] at h
    subst h
    simp [hf, hr]

theorem fileClose_eq_ok {w w1 : World} (h : fileClose w = (none, w1)) :
    w1.files = w.files ∧ w1.rand = w.rand := by
  unfold fileClose at h
  have hf := fault_files w
  have hr := fault_rand w
  split at h
  · simp at h
  · rename_i w2 heq
    simp only [heq] at hf hr
    simp only [Prod.mk.injEq, true_and] at h
    subst h
    exact ⟨hf, hr⟩

theorem osRename_eq_ok {p q : String} {w w1 : World} (h : osRename p q w = (none, w1)) :
    ∃ content, w.files p = some content ∧
      w1.files = setFile (setFile w.files p none) q (some content) ∧ w1.rand = w.rand := by
  unfold osRename at h
  have hf := fault_files w
  have hr := fault_rand w
  split at h
  · simp at h
  · rename_i w2 heq
    simp only [heq] at hf hr
    split at h
    · simp at h
    · rename_i content hc
      simp only [Prod.mk.injEq, true_and] at h
      subst h
      rw [hf] at hc
      exact ⟨content, hc, by simp [hf], hr⟩

theorem randRead_eq_ok {n : Nat} {w w1 : World} {bs : List Byte}
    (h : randRead n w = ((bs, none), w1)) :
    n ≤ w.rand.length ∧ bs = w.rand.take n ∧ w1.files = w.files ∧
      w1.rand = w.rand.drop n ∧ w1.faults = w.faults := by
  unfold randRead at h
  split at h
  · rename_i hle
    simp only [Prod.mk.injEq, true_and, and_true] at h
    obtain ⟨h1, h2⟩ := h
    subst h1 h2
    simp [hle]
  · simp at h

theorem fault_faults (w : World) : w.fault.2.faults = w.faults.tail := by
  unfold World.fault
  split
  · rename_i h; simp [h]
  · rename_i b bs h; simp [h]

theorem fault_fst (w : World) : w.fault.1 = true ↔ w.faults.head? = some true := by
  unfold World.fault
  split
  · rename_i h; simp [h]
  · rename_i b bs h; simp [h]

theorem osRemove_rand (p : String) (w : World) : (osRemove p w).2.rand = w.rand := by
  unfold osRemove
  have hr := fault_rand w
  split
  · rename_i w1 heq; simp only [heq] at hr; exact hr
  · rename_i w1 heq
    simp only [heq] at hr
    split <;> exact hr

theorem osRemove_faults (p : String) (w : World) :
    (osRemove p w).2.faults = w.faults.tail := by
  unfold osRemove
  have hq := fault_faults w
  split
  · rename_i w1 heq; simp only [heq] at hq; exact hq
  · rename_i w1 heq
    simp only [heq] at hq
    split <;> exact hq

/-- A call of `os.Remove` either leaves the file system as it is (it failed)
or removes the file. -/
theorem osRemove_files (p : String) (w : World) :
    (osRemove p w).2.files = w.files ∨ (osRemove p w).2.files = setFile w.files p none := by
  unfold osRemove
  have hf := fault_files w
  split
  · rename_i w1 heq; simp only [heq] at hf; exact Or.inl hf
  · rename_i w1 heq
    simp only [heq] at hf
    split
    · exact Or.inl hf
    · exact Or.inr (by simp [hf])

/-- A call of `os.Remove` that the fault schedule lets through removes the
file. -/
theorem osRemove_ok (p : String) (w : World) (h : w.faults.head? ≠ some true) :
    (osRemove p w).2.files = setFile w.files p none := by
  unfold osRemove
  have hf := fault_files w
  have h1 := (fault_fst w).1
  split
  · rename_i w1 heq
    rw [heq] at h1
    exact absurd (h1 rfl) h
  · rename_i w1 heq
    simp only [heq] at hf
    split
    · rename_i hnone
      rw [hf] at hnone
      funext q
      by_cases hq : q = p
      · subst hq; simp [setFile, hnone, hf]
      · simp [setFile, hq, hf]
    · simp [hf]

theorem osRemove_calm (p : String) (w : World) (hq : w.faults = []) :
    (osRemove p w).2 = World.mk (setFile w.files p none) w.rand [] := by
  have h1 := osRemove_ok p w (by simp [hq])
  have h2 := osRemove_rand p w
  have h3 := osRemove_faults p w
  rw [hq] at h3
  cases hrem : (osRemove p w).2 with
  | mk f r q =>
    rw [hrem] at h1 h2 h3
    simp only at h1 h2 h3
    subst h1 h2 h3
    rfl

theorem osRemove_frame (p q : String) (w : World) (hq : q ≠ p) :
    (osRemove p w).2.files q = w.files q := by
  rcases osRemove_files p w with h | h
  · rw [h]
  · rw [h, setFile_other _ _ _ _ hq]

/-- Overwriting the path after an `os.Remove` hides whether the removal
worked. -/
theorem osRemove_setFile (p : String) (w : World) (v : Option (List Byte)) :
    setFile (osRemove p w).2.files p v = setFile w.files p v := by
  rcases osRemove_files p w with h | h
  · rw [h]
  · rw [h, setFile_setFile]

theorem osRemove_none (p : String) (w : World) (h : w.files p = none) :
    (osRemove p w).2.files p = none := by
  rcases osRemove_files p w with h1 | h1
  · rw [h1, h]
  · rw [h1, setFile_same]

theorem save_eq_ok {c : Crypto} {s : State} {fp : String} {data : List Byte} {w w1 : World}
    (h : s.save c fp data w = (none, w1)) :
    w1.files = setFile w.files fp (some ((w.files fp).getD [] ++ container c s data)) ∧
      w1.rand = w.rand := by
  unfold State.save at h
  split at h
  · simp at h
  · rename_i wa ha
    split at h
    · simp at h
    · rename_i wb hb
      split at h
      · simp at h
      · rename_i wc hc
        dsimp only at h
        split at h
        · simp at h
        · rename_i wd hd
          simp only [Prod.mk.injEq, true_and] at h
          subst h
          obtain ⟨fa, ra⟩ := fileWrite_eq_ok ha
          obtain ⟨fb, rb⟩ := fileWrite_eq_ok hb
          obtain ⟨fc, rc⟩ := fileWrite_eq_ok hc
          obtain ⟨fd, rd⟩ := fileWrite_eq_ok hd
          refine ⟨?_, by rw [rd, rc, rb, ra]⟩
          rw [fd, fc, fb, fa]
          simp [setFile_same, setFile_setFile, container, List.append_assoc]

/-! ## The operations: what success means -/

theorem Create_eq_ok {c : Crypto} {fn : String} {X P : List Byte} {w v : World}
    {r : CreateResult} (h : Create c fn X P w = (r, v)) (herr : r.err = none) :
    w.files fn = none ∧ r.state = some (freshState c fn X w.rand) ∧
      v.files = setFile w.files fn (some (container c (freshState c fn X w.rand) P)) ∧
      v.rand = w.rand.drop 56 := by
  unfold Create at h
  split at h
  · simp only [Prod.mk.injEq] at h
    rw [← h.1] at herr
    simp at herr
  · rename_i hstat
    have hnone : w.files fn = none := by
      simpa [osStat] using hstat
    split at h
    · simp only [Prod.mk.injEq] at h
      rw [← h.1] at herr
      simp at herr
    · rename_i salt wa ha
      split at h
      · simp only [Prod.mk.injEq] at h
        rw [← h.1] at herr
        simp at herr
      · rename_i nonce wb hb
        obtain ⟨_, hsalt, fa, ra, _⟩ := randRead_eq_ok ha
        obtain ⟨_, hnonce, fb, rb, _⟩ := randRead_eq_ok hb
        dsimp only at h
        split at h
        · simp only [Prod.mk.injEq] at h
          rw [← h.1] at herr
          simp at herr
        · rename_i wc hc
          split at h
          · simp only [Prod.mk.injEq] at h
            rw [← h.1] at herr
            simp at herr
          · rename_i wd hd
            split at h
            · simp only [Prod.mk.injEq] at h
              rw [← h.1] at herr
              simp at herr
            · rename_i we he
              simp only [Prod.mk.injEq] at h
              obtain ⟨hr, hw⟩ := h
              subst hr hw
              obtain ⟨fc, rc⟩ := osCreate_eq_ok hc
              obtain ⟨fd, rd⟩ := save_eq_ok hd
              obtain ⟨fe, re⟩ := fileClose_eq_ok he
              have hst : State.mk fn (fill 32 salt) (fill 24 nonce) (deriveKey c X (fill 32 salt))
                  = freshState c fn X w.rand := by
                simp [freshState, hsalt, hnonce, ra]
              rw [hst] at fd
              refine ⟨hnone, by rw [hst], ?_, ?_⟩
              · rw [fe, fd, fc, fb, fa]
                simp [setFile_same, setFile_setFile]
              · rw [re, rd, rc, rb, ra]
                simp

theorem tmpfile_ne (fn : String) : fn ++ ".new" ≠ fn := by
  intro h
  have hl := congrArg String.length h
  simp [String.length_append] at hl
  revert hl
  decide

theorem Save_eq_ok {c : Crypto} {s : State} {data : List Byte} {w v : World}
    (h : s.Save c data w = (none, v)) :
    v.files = setFile (setFile w.files (s.filename ++ ".new") none) s.filename
        (some (container c s data)) ∧ v.rand = w.rand := by
  unfold State.Save at h
  dsimp only at h
  have r0 := osRemove_rand (s.filename ++ ".new") w
  split at h
  · simp at h
  · rename_i wa ha
    split at h
    · simp at h
    · rename_i wb hb
      split at h
      · simp at h
      · rename_i wc hc
        obtain ⟨fa, ra⟩ := osCreate_eq_ok ha
        obtain ⟨fb, rb⟩ := save_eq_ok hb
        obtain ⟨fc, rc⟩ := fileClose_eq_ok hc
        obtain ⟨content, hcont, fd, rd⟩ := osRename_eq_ok h
        rw [fc, fb, fa] at hcont fd
        simp only [setFile_same, setFile_setFile, Option.getD_some, List.nil_append,
          Option.some.injEq] at hcont fd
        rw [osRemove_setFile] at fd
        subst hcont
        exact ⟨fd, by rw [rd, rc, rb, ra, r0]⟩

theorem fill_toList {n : Nat} (v : Bytes n) : fill n v.toList = v := by
  apply Subtype.ext
  have hl : v.toList.length = n := v.2
  simp [fill, Mathlib.Vector.toList, List.take_of_length_le (le_of_eq v.2)]

theorem fileRead_calm (w : World) (hq : w.faults = []) (n : Nat) (rd : List Byte)
    (h : rd ≠ []) : fileRead n rd w = ((rd.take n, rd.drop n, none), w) := by
  simp [fileRead, fault_calm w hq, h]

theorem fileRead_calm_nil (w : World) (hq : w.faults = []) (n : Nat) (hn : 0 < n) :
    fileRead n [] w = (([], [], some Error.EOF), w) := by
  simp [fileRead, fault_calm w hq, hn]

theorem ioutilReadAll_calm (w : World) (hq : w.faults = []) (rd : List Byte) :
    ioutilReadAll rd w = ((rd, none), w) := by
  simp [ioutilReadAll, fault_calm w hq]

theorem fileClose_calm (w : World) (hq : w.faults = []) : fileClose w = (none, w) := by
  simp [fileClose, fault_calm w hq]

theorem osOpen_calm (w : World) (hq : w.faults = []) (fn : String) (content : List Byte)
    (hfile : w.files fn = some content) : osOpen fn w = ((content, none), w) := by
  simp [osOpen, fault_calm w hq, hfile]

theorem fill_one_head (b : Byte) (rest : List Byte) : (fill 1 ((b :: rest).take 1)).head = b := by
  rfl

theorem Open_body_calm_container (c : Crypto) (fn : String) (X : List Byte) (w : World)
    (hq : w.faults = []) (salt : Bytes 32) (nonce : Bytes 24) (enc : List Byte) :
    Open.body c fn X ([Version] ++ salt.toList ++ nonce.toList ++ enc) w =
      (match c.Open enc nonce (deriveKey c X salt) with
        | none => ⟨none, [], some (Error.cannotDecrypt fn)⟩
        | some d => ⟨some ⟨fn, salt, nonce, deriveKey c X salt⟩, d, none⟩, w) := by
  have hs : salt.toList.length = 32 := salt.2
  have hn : nonce.toList.length = 24 := nonce.2
  have e1 : fileRead 1 ([Version] ++ salt.toList ++ nonce.toList ++ enc) w =
      (([Version], salt.toList ++ nonce.toList ++ enc, none), w) := by
    rw [fileRead_calm w hq _ _ (by simp)]
    simp
  have e2 : fileRead 32 (salt.toList ++ nonce.toList ++ enc) w =
      ((salt.toList, nonce.toList ++ enc, none), w) := by
    rw [fileRead_calm w hq _ _ (by intro h; simp at h; rw [h.1] at hs; simp at hs)]
    rw [List.append_assoc, List.take_left' hs, List.drop_left' hs]
  have e3 : fileRead 24 (nonce.toList ++ enc) w = ((nonce.toList, enc, none), w) := by
    rw [fileRead_calm w hq _ _ (by intro h; simp at h; rw [h.1] at hn; simp at hn)]
    rw [List.take_left' hn, List.drop_left' hn]
  have hv : (fill 1 [Version]).head = Version := rfl
  unfold Open.body
  rw [e1]
  dsimp only
  rw [if_neg (by simp [hv]), e2]
  dsimp only
  rw [e3]
  dsimp only
  rw [ioutilReadAll_calm w hq]
  dsimp only
  rw [fill_toList, fill_toList]
  cases c.Open enc nonce (deriveKey c X salt) <;> rfl

theorem Open_calm_container (c : Crypto) (fn : String) (X : List Byte) (w : World)
    (hq : w.faults = []) (salt : Bytes 32) (nonce : Bytes 24) (enc : List Byte)
    (hfile : w.files fn = some ([Version] ++ salt.toList ++ nonce.toList ++ enc)) :
    Open c fn X w =
      (match c.Open enc nonce (deriveKey c X salt) with
        | none => ⟨none, [], some (Error.cannotDecrypt fn)⟩
        | some d => ⟨some ⟨fn, salt, nonce, deriveKey c X salt⟩, d, none⟩, w) := by
  unfold Open
  rw [osOpen_calm w hq fn _ hfile]
  dsimp only
  rw [Open_body_calm_container c fn X w hq]
  dsimp only
  rw [fileClose_calm w hq]

theorem fault_snd_calm (w : World) : w.fault.2.calm = w.calm := by
  unfold World.fault
  split <;> rfl

theorem calm_faults (w : World) : w.calm.faults = [] := rfl

theorem fileRead_eq_ok {n : Nat} {rd bs rd1 : List Byte} {w w1 : World}
    (h : fileRead n rd w = ((bs, rd1, none), w1)) :
    fileRead n rd w.calm = ((bs, rd1, none), w.calm) ∧ w1.calm = w.calm := by
  unfold fileRead at h
  have hf := fault_snd_calm w
  split at h
  · simp at h
  · rename_i w2 heq
    simp only [heq] at hf
    split at h
    · simp at h
    · rename_i hcond
      simp only [Prod.mk.injEq, and_true] at h
      obtain ⟨⟨h1, h2⟩, h3⟩ := h
      subst h1 h2 h3
      refine ⟨?_, hf⟩
      simp only [fileRead, fault_calm w.calm rfl, if_neg hcond]

theorem ioutilReadAll_eq_ok {rd enc : List Byte} {w w1 : World}
    (h : ioutilReadAll rd w = ((enc, none), w1)) :
    ioutilReadAll rd w.calm = ((enc, none), w.calm) ∧ w1.calm = w.calm := by
  unfold ioutilReadAll at h
  have hf := fault_snd_calm w
  split at h
  · simp at h
  · rename_i w2 heq
    simp only [heq] at hf
    simp only [Prod.mk.injEq, and_true] at h
    obtain ⟨h1, h3⟩ := h
    subst h1 h3
    exact ⟨ioutilReadAll_calm w.calm rfl rd, hf⟩

theorem osOpen_eq_ok {fn : String} {rd : List Byte} {w w1 : World}
    (h : osOpen fn w = ((rd, none), w1)) :
    w.files fn = some rd ∧ w1.calm = w.calm := by
  unfold osOpen at h
  have hf := fault_snd_calm w
  have hfs := fault_files w
  split at h
  · simp at h
  · rename_i w2 heq
    simp only [heq] at hf hfs
    split at h
    · simp at h
    · rename_i content hc
      simp only [Prod.mk.injEq, and_true] at h
      obtain ⟨h1, h3⟩ := h
      subst h1 h3
      rw [hfs] at hc
      exact ⟨hc, hf⟩

theorem fileClose_snd_calm (w : World) : (fileClose w).2.calm = w.calm := by
  unfold fileClose
  have hf := fault_snd_calm w
  split
  · rename_i w2 heq
    simp only [heq] at hf
    exact hf
  · rename_i w2 heq
    simp only [heq] at hf
    exact hf

theorem Open_body_eq_ok {c : Crypto} {fn : String} {X rd : List Byte} {w v : World}
    {r : OpenResult} (h : Open.body c fn X rd w = (r, v)) (herr : r.err = none) :
    Open.body c fn X rd w.calm = (r, w.calm) ∧ v.calm = w.calm ∧
      ∃ s, r.state = some s ∧ s.filename = fn ∧ s.key = deriveKey c X s.salt := by
  unfold Open.body at h
  split at h
  · simp only [Prod.mk.injEq] at h
    rw [← h.1] at herr
    simp at herr
  · rename_i version rd1 wa ha
    split at h
    · simp only [Prod.mk.injEq] at h
      rw [← h.1] at herr
      simp at herr
    · rename_i hver
      split at h
      · simp only [Prod.mk.injEq] at h
        rw [← h.1] at herr
        simp at herr
      · rename_i salt rd2 wb hb
        split at h
        · simp only [Prod.mk.injEq] at h
          rw [← h.1] at herr
          simp at herr
        · rename_i nonce rd3 wc hc
          dsimp only at h
          split at h
          · simp only [Prod.mk.injEq] at h
            rw [← h.1] at herr
            simp at herr
          · rename_i enc wd hd
            split at h
            · simp only [Prod.mk.injEq] at h
              rw [← h.1] at herr
              simp at herr
            · rename_i data hdata
              simp only [Prod.mk.injEq] at h
              obtain ⟨hr, hw⟩ := h
              subst hr hw
              obtain ⟨ca, qa⟩ := fileRead_eq_ok ha
              obtain ⟨cb, qb⟩ := fileRead_eq_ok hb
              obtain ⟨cc, qc⟩ := fileRead_eq_ok hc
              obtain ⟨cd, qd⟩ := ioutilReadAll_eq_ok hd
              rw [qa] at cb
              rw [qb, qa] at cc
              rw [qc, qb, qa] at cd
              refine ⟨?_, by rw [qd, qc, qb, qa], _, rfl, rfl, rfl⟩
              unfold Open.body
              rw [ca]
              dsimp only
              rw [if_neg hver, cb]
              dsimp only
              rw [cc]
              dsimp only
              rw [cd]
              dsimp only
              rw [hdata]

theorem Open_eq_ok {c : Crypto} {fn : String} {X : List Byte} {w v : World}
    {r : OpenResult} (h : Open c fn X w = (r, v)) (herr : r.err = none) :
    (Open c fn X w.calm).1 = r ∧ v.calm = w.calm ∧
      ∃ s, r.state = some s ∧ s.filename = fn ∧ s.key = deriveKey c X s.salt := by
  unfold Open at h
  split at h
  · simp only [Prod.mk.injEq] at h
    rw [← h.1] at herr
    simp at herr
  · rename_i rd wa ha
    obtain ⟨hfile, qa⟩ := osOpen_eq_ok ha
    dsimp only at h
    simp only [Prod.mk.injEq] at h
    obtain ⟨hr, hw⟩ := h
    obtain ⟨cb, qb, hs⟩ := Open_body_eq_ok (r := (Open.body c fn X rd wa).1)
      (v := (Open.body c fn X rd wa).2) rfl (by rw [hr]; exact herr)
    rw [hr] at cb hs
    rw [qa] at cb
    refine ⟨?_, ?_, hs⟩
    · unfold Open
      rw [osOpen_calm w.calm rfl fn rd hfile]
      dsimp only
      rw [cb]
    · rw [← hw, fileClose_snd_calm, qb, qa]

theorem files_of_calm_eq {w w1 : World} (h : w1.calm = w.calm) :
    w1.files = w.files ∧ w1.rand = w.rand := by
  have hf := congrArg World.files h
  have hr := congrArg World.rand h
  exact ⟨hf, hr⟩

theorem Rekey_eq_ok {c : Crypto} {fn : String} {X Y : List Byte} {w v : World}
    (h : Rekey c fn X Y w = (none, v)) :
    ∃ s data, (Open c fn X w.calm).1 = ⟨some s, data, none⟩ ∧
      v.files = setFile (setFile w.files (fn ++ ".new") none) fn
        (some (container c (freshState c (fn ++ ".new") Y w.rand) data)) := by
  unfold Rekey at h
  split at h
  · simp at h
  · rename_i st data wa ha
    obtain ⟨hcalm, qa, s, hs, _, _⟩ := Open_eq_ok ha rfl
    obtain ⟨fa, ra⟩ := files_of_calm_eq qa
    dsimp only at h hs
    subst hs
    have r0 := osRemove_rand (fn ++ ".new") wa
    split at h
    · simp at h
    · rename_i st2 wb hb
      obtain ⟨_, _, fb, _⟩ := Create_eq_ok hb rfl
      obtain ⟨content, hcont, fc, _⟩ := osRename_eq_ok h
      rw [fb, r0, ra, osRemove_setFile, fa] at hcont fc
      simp only [setFile_same, setFile_setFile, Option.some.injEq] at hcont fc
      subst hcont
      exact ⟨s, data, hcalm, fc⟩

/-! ## The operations in a world without I/O faults -/

theorem fileRead_snd_calm {n : Nat} {rd : List Byte} {w w1 : World}
    {x : List Byte × List Byte × Option Error} (hq : w.faults = [])
    (h : fileRead n rd w = (x, w1)) : w1 = w := by
  have h2 := congrArg Prod.snd h
  simp only [fileRead, fault_calm w hq] at h2
  split at h2 <;> exact h2.symm

theorem ioutilReadAll_snd_calm {rd : List Byte} {w w1 : World}
    {x : List Byte × Option Error} (hq : w.faults = [])
    (h : ioutilReadAll rd w = (x, w1)) : w1 = w := by
  have h2 := congrArg Prod.snd h
  simp only [ioutilReadAll, fault_calm w hq] at h2
  exact h2.symm

theorem Open_body_snd_calm (c : Crypto) (fn : String) (X rd : List Byte) (w : World)
    (hq : w.faults = []) : (Open.body c fn X rd w).2 = w := by
  unfold Open.body
  split
  · rename_i h1
    exact fileRead_snd_calm hq h1
  · rename_i h1
    have e1 := fileRead_snd_calm hq h1
    subst e1
    split
    · rfl
    · split
      · rename_i h2
        exact fileRead_snd_calm hq h2
      · rename_i h2
        have e2 := fileRead_snd_calm hq h2
        subst e2
        split
        · rename_i h3
          exact fileRead_snd_calm hq h3
        · rename_i h3
          have e3 := fileRead_snd_calm hq h3
          subst e3
          dsimp only
          split
          · rename_i h4
            exact ioutilReadAll_snd_calm hq h4
          · rename_i h4
            have e4 := ioutilReadAll_snd_calm hq h4
            subst e4
            split <;> rfl

theorem Open_snd_calm (c : Crypto) (fn : String) (X : List Byte) (w : World)
    (hq : w.faults = []) : (Open c fn X w).2 = w := by
  unfold Open osOpen
  rw [fault_calm w hq]
  dsimp only
  cases hfile : w.files fn with
  | none => rfl
  | some content =>
    dsimp only
    rw [Open_body_snd_calm c fn X content w hq, fileClose_calm w hq]

theorem save_calm (c : Crypto) (s : State) (fp : String) (data : List Byte) (w : World)
    (hq : w.faults = []) :
    s.save c fp data w = (none, World.mk
      (setFile w.files fp (some ((w.files fp).getD [] ++ container c s data))) w.rand []) := by
  obtain ⟨fs, rd, φ⟩ := w
  simp only at hq
  subst hq
  simp [State.save, fileWrite, World.fault, setFile_same, setFile_setFile, container]

theorem Create_calm (c : Crypto) (fn : String) (X P : List Byte) (w : World)
    (hq : w.faults = []) (hnone : w.files fn = none) (hr : 56 ≤ w.rand.length) :
    Create c fn X P w = (⟨some (freshState c fn X w.rand), none⟩,
      { files := setFile w.files fn (some (container c (freshState c fn X w.rand) P)),
        rand := w.rand.drop 56, faults := [] }) := by
  obtain ⟨fs, rd, φ⟩ := w
  simp only at hq hnone hr
  subst hq
  have h32 : 32 ≤ rd.length := by omega
  have h24 : 24 ≤ rd.length - 32 := by omega
  simp only [Create, osStat, hnone, randRead, h32, List.length_drop, h24, osCreate, World.fault,
    fileClose]
  simp [save_calm, setFile_same, setFile_setFile, freshState, World.fault, h24]

theorem osRename_calm (p q : String) (w : World) (hq : w.faults = []) (content : List Byte)
    (h : w.files p = some content) :
    osRename p q w = (none, World.mk
      (setFile (setFile w.files p none) q (some content)) w.rand []) := by
  obtain ⟨fs, rd, φ⟩ := w
  simp only at hq h
  subst hq
  simp [osRename, World.fault, h]

theorem Rekey_calm (c : Crypto) (fn : String) (X Y : List Byte) (w : World)
    (hq : w.faults = []) (s : State) (data : List Byte)
    (hopen : (Open c fn X w).1 = ⟨some s, data, none⟩) (hr : 56 ≤ w.rand.length) :
    (Rekey c fn X Y w).1 = none := by
  have hw := Open_snd_calm c fn X w hq
  have hpair : Open c fn X w = (⟨some s, data, none⟩, w) := Prod.ext hopen hw
  have h0 := osRemove_calm (fn ++ ".new") w hq
  have hcreate := Create_calm c (fn ++ ".new") Y data (osRemove (fn ++ ".new") w).2
    (by rw [h0]) (by rw [h0]; exact setFile_same _ _ _) (by rw [h0]; exact hr)
  unfold Rekey
  rw [hpair]
  dsimp only
  rw [hcreate]
  dsimp only
  rw [osRename_calm _ _ _ rfl _ (setFile_same _ _ _)]

/-! ## Opening what `Create` and `Rekey` wrote -/

theorem Open_after_Create (c : Crypto) (w : World) (path : String) (X P Z : List Byte)
    (hok : (Create c path X P w).1.err = none) :
    (Open c path Z (Create c path X P w).2.calm).1 =
      match c.Open (c.Seal P (freshState c path X w.rand).nonce (freshState c path X w.rand).key)
          (freshState c path X w.rand).nonce (deriveKey c Z (freshState c path X w.rand).salt) with
      | none => ⟨none, [], some (Error.cannotDecrypt path)⟩
      | some d => ⟨some ⟨path, (freshState c path X w.rand).salt,
          (freshState c path X w.rand).nonce,
          deriveKey c Z (freshState c path X w.rand).salt⟩, d, none⟩ := by
  obtain ⟨_, _, hfiles, _⟩ := Create_eq_ok (r := (Create c path X P w).1)
    (v := (Create c path X P w).2) rfl hok
  have hfile : (Create c path X P w).2.calm.files path =
      some ([Version] ++ (freshState c path X w.rand).salt.toList ++
        (freshState c path X w.rand).nonce.toList ++
        c.Seal P (freshState c path X w.rand).nonce (freshState c path X w.rand).key) := by
    show (Create c path X P w).2.files path = _
    rw [hfiles, setFile_same]
    rfl
  rw [Open_calm_container c path Z _ rfl _ _ _ hfile]

theorem Open_after_Rekey (c : Crypto) (w : World) (path : String) (X Y Z : List Byte)
    (hok : (Rekey c path X Y w).1 = none) :
    (Open c path Z (Rekey c path X Y w).2.calm).1 =
      match c.Open (c.Seal (Open c path X w.calm).1.data
          (freshState c (path ++ ".new") Y w.rand).nonce
          (freshState c (path ++ ".new") Y w.rand).key)
          (freshState c (path ++ ".new") Y w.rand).nonce
          (deriveKey c Z (freshState c (path ++ ".new") Y w.rand).salt) with
      | none => ⟨none, [], some (Error.cannotDecrypt path)⟩
      | some d => ⟨some ⟨path, (freshState c (path ++ ".new") Y w.rand).salt,
          (freshState c (path ++ ".new") Y w.rand).nonce,
          deriveKey c Z (freshState c (path ++ ".new") Y w.rand).salt⟩, d, none⟩ := by
  obtain ⟨s1, data, h1, hfiles⟩ := Rekey_eq_ok (v := (Rekey c path X Y w).2)
    (Prod.ext hok rfl)
  have hdata : (Open c path X w.calm).1.data = data := by rw [h1]
  have hfile : (Rekey c path X Y w).2.calm.files path =
      some ([Version] ++ (freshState c (path ++ ".new") Y w.rand).salt.toList ++
        (freshState c (path ++ ".new") Y w.rand).nonce.toList ++
        c.Seal (Open c path X w.calm).1.data (freshState c (path ++ ".new") Y w.rand).nonce
          (freshState c (path ++ ".new") Y w.rand).key) := by
    show (Rekey c path X Y w).2.files path = _
    rw [hfiles, setFile_same, hdata]
    rfl
  rw [Open_calm_container c path Z _ rfl _ _ _ hfile]

/-! ## Results of `Open` -/

theorem Open_body_shape (c : Crypto) (fn : String) (X rd : List Byte) (w : World) :
    (Open.body c fn X rd w).1.err = none ∨
      ∃ e, (Open.body c fn X rd w).1 = ⟨none, [], some e⟩ := by
  unfold Open.body
  split
  · exact Or.inr ⟨_, rfl⟩
  · split
    · exact Or.inr ⟨_, rfl⟩
    · split
      · exact Or.inr ⟨_, rfl⟩
      · split
        · exact Or.inr ⟨_, rfl⟩
        · dsimp only
          split
          · exact Or.inr ⟨_, rfl⟩
          · split
            · exact Or.inr ⟨_, rfl⟩
            · exact Or.inl rfl

theorem Open_shape (c : Crypto) (fn : String) (X : List Byte) (w : World) :
    (Open c fn X w).1.err = none ∨ ∃ e, (Open c fn X w).1 = ⟨none, [], some e⟩ := by
  unfold Open
  split
  · exact Or.inr ⟨_, rfl⟩
  · exact Open_body_shape c fn X _ _

theorem Open_body_calm_short (c : Crypto) (hshort : c.RejectsShort) (fn : String)
    (X rd : List Byte) (w : World) (hq : w.faults = []) (hlen : rd.length < 57) :
    (Open.body c fn X rd w).1.err ≠ none := by
  unfold Open.body
  by_cases h0 : rd = []
  · subst h0
    rw [fileRead_calm_nil w hq 1 (by decide)]
    simp
  · rw [fileRead_calm w hq 1 rd h0]
    dsimp only
    split
    · simp
    · by_cases h1 : rd.drop 1 = []
      · rw [h1, fileRead_calm_nil w hq 32 (by decide)]
        simp
      · rw [fileRead_calm w hq 32 _ h1]
        dsimp only
        by_cases h2 : (rd.drop 1).drop 32 = []
        · rw [h2, fileRead_calm_nil w hq 24 (by decide)]
          simp
        · rw [fileRead_calm w hq 24 _ h2]
          dsimp only
          rw [ioutilReadAll_calm w hq]
          dsimp only
          have h3 : ((rd.drop 1).drop 32).drop 24 = [] := by
            rw [List.drop_drop, List.drop_drop, List.drop_eq_nil_iff]
            omega
          rw [h3, hshort [] _ _ (by simp [Overhead])]
          simp

theorem storedNonce_container (c : Crypto) (s : State) (d : List Byte) :
    storedNonce (container c s d) = s.nonce.toList := by
  have hs : s.salt.toList.length = 32 := s.salt.2
  have hn : s.nonce.toList.length = 24 := s.nonce.2
  have h33 : ([Version] ++ s.salt.toList).length = 33 := by simp [hs]
  unfold storedNonce container
  rw [List.append_assoc ([Version] ++ s.salt.toList), List.drop_left' h33, List.take_left' hn]

theorem state_of_Create_or_Open {c : Crypto} {path : String} {X : List Byte} {s : State}
    {w0 : World}
    (hs : (∃ P, (Create c path X P w0).1 = ⟨some s, none⟩) ∨
      (∃ P, (Open c path X w0).1 = ⟨some s, P, none⟩)) :
    s.filename = path ∧ s.key = deriveKey c X s.salt := by
  rcases hs with ⟨P, h⟩ | ⟨P, h⟩
  · obtain ⟨_, h2, _, _⟩ := Create_eq_ok (r := (Create c path X P w0).1)
      (v := (Create c path X P w0).2) rfl (by rw [h])
    rw [h] at h2
    simp only [Option.some.injEq] at h2
    subst h2
    exact ⟨rfl, rfl⟩
  · obtain ⟨_, _, s2, h2, h3, h4⟩ := Open_eq_ok (r := (Open c path X w0).1)
      (v := (Open c path X w0).2) rfl (by rw [h])
    rw [h] at h2
    simp only [Option.some.injEq] at h2
    subst h2
    exact ⟨h3, h4⟩

theorem WrittenBy_container {c : Crypto} {path : String} {X P content : List Byte}
    (h : WrittenBy c path X P content) :
    ∃ s : State, s.key = deriveKey c X s.salt ∧ content = container c s P := by
  rcases h with ⟨w0, hok, hfile⟩ | ⟨s, w0, w1, hs, hsave, hfile⟩
  · obtain ⟨_, _, hfiles, _⟩ := Create_eq_ok (r := (Create c path X P w0).1)
      (v := (Create c path X P w0).2) rfl hok
    rw [hfiles, setFile_same] at hfile
    simp only [Option.some.injEq] at hfile
    exact ⟨_, rfl, hfile.symm⟩
  · obtain ⟨hfn, hkey⟩ := state_of_Create_or_Open hs
    obtain ⟨hfiles, _⟩ := Save_eq_ok (v := (s.Save c P w1).2) (Prod.ext hsave rfl)
    rw [hfiles, hfn, setFile_same] at hfile
    simp only [Option.some.injEq] at hfile
    exact ⟨s, hkey, hfile.symm⟩

/-! ## Derived keys collide -/

/-- Derived keys have 32 bytes, so whatever the key derivation is, two
different passphrases of 33 bytes derive the same key for a given salt. A
promise that different passphrases derive different keys can therefore only be
made of the passphrase at hand (`Crypto.KeyOnlyFrom`), not of all at once. -/
theorem key_collision (c : Crypto) (salt : Bytes 32) :
    ∃ X Y : List Byte, X.length = 33 ∧ Y.length = 33 ∧ X ≠ Y ∧
      deriveKey c X salt = deriveKey c Y salt := by
  have hcard : Fintype.card (Bytes 32) < Fintype.card (Bytes 33) := by
    rw [card_vector, card_vector, Fintype.card_fin]
    exact Nat.pow_lt_pow_right (by decide) (by decide)
  obtain ⟨X, Y, hne, h⟩ := Fintype.exists_ne_map_eq_of_card_lt
    (fun X : Bytes 33 => deriveKey c X.toList salt) hcard
  exact ⟨X.toList, Y.toList, X.2, Y.2, fun h2 => hne (Subtype.ext h2), h⟩

/-! ## The sample primitives keep the promises -/

theorem sampleCrypto_sealOpen : sampleCrypto.SealOpen := by
  intro d n k
  simp [sampleCrypto, sampleTag, Overhead]

theorem sampleTag_length (d : List Byte) (n : Bytes 24) (k : Bytes 32) :
    (sampleTag d n k).length = 16 := by
  simp [sampleTag]

theorem sum_set_ne (d : List Byte) (j : Nat) (b : Byte) (hj : j < d.length)
    (hb : d[j]? ≠ some b) : (d.set j b).sum ≠ d.sum := by
  induction d generalizing j with
  | nil => simp at hj
  | cons a t ih =>
    cases j with
    | zero =>
      simp only [List.set_cons_zero, List.sum_cons]
      intro h
      have hab := add_right_cancel h
      apply hb
      simp [hab]
    | succ j =>
      simp only [List.set_cons_succ, List.sum_cons]
      intro h
      have ht := add_left_cancel h
      have hj2 : j < t.length := by simpa using hj
      exact ih j hj2 (by simpa using hb) ht

theorem sampleCrypto_tamperEvident : sampleCrypto.TamperEvident := by
  intro d n k i b hi hb
  have hlen := sampleTag_length d n k
  show (if Overhead ≤ ((sampleTag d n k ++ d).set i b).length ∧
      ((sampleTag d n k ++ d).set i b).take Overhead =
        sampleTag (((sampleTag d n k ++ d).set i b).drop Overhead) n k
    then some (((sampleTag d n k ++ d).set i b).drop Overhead) else none) = none
  have hi2 : i < (sampleTag d n k ++ d).length := hi
  have hb2 : (sampleTag d n k ++ d)[i]? ≠ some b := hb
  rw [if_neg]
  rintro ⟨_, heq⟩
  by_cases h16 : i < 16
  · rw [List.set_append_left i b (by rw [hlen]; exact h16),
      List.take_left' (by rw [List.length_set, hlen]; rfl),
      List.drop_left' (by rw [List.length_set, hlen]; rfl)] at heq
    rw [List.getElem?_append_left (by rw [hlen]; exact h16)] at hb2
    apply hb2
    rw [← heq, List.getElem?_set_self (by rw [hlen]; exact h16)]
  · have h16b : (sampleTag d n k).length ≤ i := by rw [hlen]; omega
    rw [List.set_append_right i b h16b, List.take_left' (by rw [hlen]; rfl),
      List.drop_left' (by rw [hlen]; rfl)] at heq
    rw [List.getElem?_append_right h16b] at hb2
    have hj : i - (sampleTag d n k).length < d.length := by
      rw [List.length_append] at hi2
      omega
    have hsum := sum_set_ne d _ b hj hb2
    apply hsum
    simp only [sampleTag, List.cons.injEq, and_true] at heq
    exact (add_right_cancel (add_right_cancel heq)).symm

theorem sampleCrypto_rejectsShort : sampleCrypto.RejectsShort := by
  intro box n k h
  show (if Overhead ≤ box.length ∧ _ then _ else none) = none
  rw [if_neg]
  intro hcon
  omega

/-! ## Round trips -/

/-- C1. Create/Open round trip: whenever `Create(path, X, P)` succeeds (which
needs that no file exists at `path`), a following `Open(path, X)` that meets no
I/O fault succeeds, returns data equal to `P` (the empty payload included) and
returns the same State. -/
theorem create_open_round_trip (c : Crypto) (hc : c.SealOpen) (w : World) (path : String)
    (X P : List Byte) (hok : (Create c path X P w).1.err = none) :
    ∃ s, (Create c path X P w).1.state = some s ∧
      (Open c path X (Create c path X P w).2.calm).1 = ⟨some s, P, none⟩ := by
  obtain ⟨_, hst, hfiles, _⟩ := Create_eq_ok (r := (Create c path X P w).1)
    (v := (Create c path X P w).2) rfl hok
  refine ⟨_, hst, ?_⟩
  have hfile : (Create c path X P w).2.calm.files path =
      some ([Version] ++ (freshState c path X w.rand).salt.toList ++
        (freshState c path X w.rand).nonce.toList ++
        c.Seal P (freshState c path X w.rand).nonce (freshState c path X w.rand).key) := by
    show (Create c path X P w).2.files path = _
    rw [hfiles, setFile_same]
    rfl
  rw [Open_calm_container c path X _ rfl _ _ _ hfile]
  have hkey : deriveKey c X (freshState c path X w.rand).salt =
      (freshState c path X w.rand).key := rfl
  rw [hkey, hc]
  rfl

/-- C1 at a concrete input: the sample primitives, an empty file system, the
passphrase `[1, 2, 3]` and the payload `[10, 20]`. -/
theorem create_open_round_trip_witness :
    ∃ s, (Create sampleCrypto "f" [1, 2, 3] [10, 20] sampleWorld).1.state = some s ∧
      (Open sampleCrypto "f" [1, 2, 3]
        (Create sampleCrypto "f" [1, 2, 3] [10, 20] sampleWorld).2.calm).1
        = ⟨some s, [10, 20], none⟩ :=
  create_open_round_trip sampleCrypto sampleCrypto_sealOpen sampleWorld "f" [1, 2, 3] [10, 20]
    (by decide)

/-- C2. Save/Open round trip: for a State `s` returned by a successful
`Create(path, X, P)` or `Open(path, X)` and any payload `P2`, whenever
`s.Save(P2)` succeeds (in whatever world it runs), a following `Open(path, X)`
that meets no I/O fault succeeds and returns `P2`: the old payload is fully
replaced. -/
theorem save_open_round_trip (c : Crypto) (hc : c.SealOpen) (path : String) (X : List Byte)
    (s : State) (w0 : World)
    (hs : (∃ P, (Create c path X P w0).1 = ⟨some s, none⟩) ∨
      (∃ P, (Open c path X w0).1 = ⟨some s, P, none⟩))
    (w : World) (P2 : List Byte) (hsave : (s.Save c P2 w).1 = none) :
    (Open c path X (s.Save c P2 w).2.calm).1 = ⟨some s, P2, none⟩ := by
  have hst : s.filename = path ∧ s.key = deriveKey c X s.salt := by
    rcases hs with ⟨P, h⟩ | ⟨P, h⟩
    · obtain ⟨_, h2, _, _⟩ := Create_eq_ok (r := (Create c path X P w0).1)
        (v := (Create c path X P w0).2) rfl (by rw [h])
      rw [h] at h2
      simp only [Option.some.injEq] at h2
      subst h2
      exact ⟨rfl, rfl⟩
    · obtain ⟨_, _, s2, h2, h3, h4⟩ := Open_eq_ok (r := (Open c path X w0).1)
        (v := (Open c path X w0).2) rfl (by rw [h])
      rw [h] at h2
      simp only [Option.some.injEq] at h2
      subst h2
      exact ⟨h3, h4⟩
  obtain ⟨hfn, hkey⟩ := hst
  obtain ⟨hfiles, _⟩ := Save_eq_ok (v := (s.Save c P2 w).2) (Prod.ext hsave rfl)
  have hfile : (s.Save c P2 w).2.calm.files path =
      some ([Version] ++ s.salt.toList ++ s.nonce.toList ++ c.Seal P2 s.nonce s.key) := by
    show (s.Save c P2 w).2.files path = _
    rw [hfiles, hfn, setFile_same]
    rfl
  rw [Open_calm_container c path X _ rfl _ _ _ hfile, ← hkey, hc]
  subst hfn
  rfl

/-- C2 at a concrete input: the State that `Create` returns in the sample world,
saved with the payload `[30]` in the world `Create` left. -/
theorem save_open_round_trip_witness :
    (Open sampleCrypto "f" [1, 2, 3]
      ((freshState sampleCrypto "f" [1, 2, 3] sampleRand).Save sampleCrypto [30]
        (Create sampleCrypto "f" [1, 2, 3] [10, 20] sampleWorld).2).2.calm).1
      = ⟨some (freshState sampleCrypto "f" [1, 2, 3] sampleRand), [30], none⟩ :=
  save_open_round_trip sampleCrypto sampleCrypto_sealOpen "f" [1, 2, 3]
    (freshState sampleCrypto "f" [1, 2, 3] sampleRand) sampleWorld
    (Or.inl ⟨[10, 20], by decide⟩)
    (Create sampleCrypto "f" [1, 2, 3] [10, 20] sampleWorld).2 [30] (by decide)

/-- C3. Rekey keeps the payload: if the container at `path` opens under `X` to
the payload `P` and `Rekey(path, X, Y)` succeeds, then a following
`Open(path, Y)` that meets no I/O fault succeeds and returns `P`. -/
theorem rekey_keeps_payload (c : Crypto) (hc : c.SealOpen) (w : World) (path : String)
    (X Y P : List Byte) (s : State)
    (hopen : (Open c path X w.calm).1 = ⟨some s, P, none⟩)
    (hrekey : (Rekey c path X Y w).1 = none) :
    ∃ s2, (Open c path Y (Rekey c path X Y w).2.calm).1 = ⟨some s2, P, none⟩ := by
  obtain ⟨s1, data, h1, hfiles⟩ := Rekey_eq_ok (v := (Rekey c path X Y w).2)
    (Prod.ext hrekey rfl)
  rw [hopen] at h1
  simp only [OpenResult.mk.injEq, Option.some.injEq, and_true] at h1
  obtain ⟨_, hdata⟩ := h1
  subst hdata
  have hfile : (Rekey c path X Y w).2.calm.files path =
      some ([Version] ++ (freshState c (path ++ ".new") Y w.rand).salt.toList ++
        (freshState c (path ++ ".new") Y w.rand).nonce.toList ++
        c.Seal P (freshState c (path ++ ".new") Y w.rand).nonce
          (freshState c (path ++ ".new") Y w.rand).key) := by
    show (Rekey c path X Y w).2.files path = _
    rw [hfiles, setFile_same]
    rfl
  rw [Open_calm_container c path Y _ rfl _ _ _ hfile]
  have hkey : deriveKey c Y (freshState c (path ++ ".new") Y w.rand).salt =
      (freshState c (path ++ ".new") Y w.rand).key := rfl
  rw [hkey, hc]
  exact ⟨_, rfl⟩

/-- C3 at a concrete input: the container `Create` wrote in the sample world
under `[1, 2, 3]`, rekeyed to `[4, 5]`. -/
theorem rekey_keeps_payload_witness :
    ∃ s2, (Open sampleCrypto "f" [4, 5]
      (Rekey sampleCrypto "f" [1, 2, 3] [4, 5]
        (Create sampleCrypto "f" [1, 2, 3] [10, 20] sampleWorld).2).2.calm).1
      = ⟨some s2, [10, 20], none⟩ :=
  rekey_keeps_payload sampleCrypto sampleCrypto_sealOpen
    (Create sampleCrypto "f" [1, 2, 3] [10, 20] sampleWorld).2 "f" [1, 2, 3] [4, 5] [10, 20]
    (freshState sampleCrypto "f" [1, 2, 3] sampleRand) (by decide) (by decide)

/-! ## Wrong passphrases -/

theorem fill_toList_take (n k : Nat) (l : List Byte) (hk : k ≤ n) (hl : k ≤ l.length) :
    (fill n l).toList.take k = l.take k := by
  simp only [fill, Mathlib.Vector.toList]
  rw [List.take_append_of_le_length (by rw [List.length_take]; omega), List.take_take,
    Nat.min_eq_left hk]

theorem keyedCrypto_deriveKey (X : List Byte) (salt : Bytes 32) :
    deriveKey keyedCrypto X salt =
      fill 32 (⟨min X.length 255, by omega⟩ :: (X ++ salt.toList)) := by
  unfold deriveKey keyedCrypto
  exact fill_toList _

theorem keyedCrypto_keyOnlyFrom (X : List Byte) (salt : Bytes 32) (hX : X.length < 32) :
    keyedCrypto.KeyOnlyFrom X salt := by
  intro Y hne hkey
  rw [keyedCrypto_deriveKey, keyedCrypto_deriveKey] at hkey
  have hs : salt.toList.length = 32 := salt.2
  have h1 := congrArg (fun v : Bytes 32 => v.toList.take (X.length + 1)) hkey
  simp only at h1
  rw [fill_toList_take _ _ _ (by omega)
      (by simp only [List.length_cons, List.length_append, hs]; omega),
    fill_toList_take _ _ _ (by omega)
      (by simp only [List.length_cons, List.length_append, hs]; omega)] at h1
  simp only [List.take_succ_cons, List.cons.injEq, Fin.mk.injEq] at h1
  obtain ⟨hlen, htake⟩ := h1
  have hY : Y.length = X.length := by omega
  rw [List.take_left' hY, List.take_left' rfl] at htake
  exact hne htake

theorem keyedCrypto_opensOnlyUnder (d : List Byte) (n : Bytes 24) (k : Bytes 32) :
    keyedCrypto.OpensOnlyUnder (keyedCrypto.Seal d n k) n k := by
  intro k2 hne
  have hk : k.toList.length = 32 := k.2
  simp only [keyedCrypto, List.take_left' hk]
  rw [if_neg]
  intro h
  exact hne (Subtype.ext h).symm

theorem keyedCrypto_sealOpen : keyedCrypto.SealOpen := by
  intro d n k
  have hk : k.toList.length = 32 := k.2
  simp [keyedCrypto, List.take_left' hk, List.drop_left' hk]

/-- C5. Wrong passphrase is rejected: for the container written by a successful
`Create(path, X, P)` and every passphrase `Y` different from `X`, a following
`Open(path, Y)` that meets no I/O fault returns the decryption-failure error,
no State and no plaintext, provided the primitives tell a wrong passphrase
apart as the spec says: no other passphrase derives the key of `X` for the
stored salt, and the stored box opens under no other key. -/
theorem wrong_passphrase_rejected (c : Crypto) (w : World) (path : String)
    (X P : List Byte) (s : State) (hok : (Create c path X P w).1 = ⟨some s, none⟩)
    (hkdf : c.KeyOnlyFrom X s.salt)
    (hbox : c.OpensOnlyUnder (c.Seal P s.nonce s.key) s.nonce s.key)
    (Y : List Byte) (hne : Y ≠ X) :
    (Open c path Y (Create c path X P w).2.calm).1 =
      ⟨none, [], some (Error.cannotDecrypt path)⟩ := by
  have herr : (Create c path X P w).1.err = none := by rw [hok]
  obtain ⟨_, hst, _, _⟩ := Create_eq_ok (r := (Create c path X P w).1)
    (v := (Create c path X P w).2) rfl herr
  rw [hok] at hst
  simp only [Option.some.injEq] at hst
  subst hst
  rw [Open_after_Create c w path X P Y herr, hbox _ (hkdf Y hne)]

/-- C5 at a concrete input: the container written under `[1, 2, 3]` with the
second sample primitives does not open under `[4, 5]`. -/
theorem wrong_passphrase_rejected_witness :
    (Open keyedCrypto "f" [4, 5]
      (Create keyedCrypto "f" [1, 2, 3] [10, 20] sampleWorld).2.calm).1 =
        ⟨none, [], some (Error.cannotDecrypt "f")⟩ :=
  wrong_passphrase_rejected keyedCrypto sampleWorld "f" [1, 2, 3] [10, 20]
    (freshState keyedCrypto "f" [1, 2, 3] sampleRand) (by decide)
    (keyedCrypto_keyOnlyFrom _ _ (by decide)) (keyedCrypto_opensOnlyUnder _ _ _)
    [4, 5] (by decide)

/-! ## Rejected files -/

/-- C6. Tamper detection: take the bytes `content` that a successful `Create`
(or `Save`) under the passphrase `X` left at `path`, and replace the byte at
any offset `i ≥ 57` of the file by a different value `b`. Then `Open` with `X`,
meeting no I/O fault, returns the decryption-failure error, no State and no
plaintext, provided the cipher is tamper-evident as the spec says. -/
theorem tamper_detected (c : Crypto) (ht : c.TamperEvident) (path : String)
    (X P content : List Byte) (hwritten : WrittenBy c path X P content)
    (i : Nat) (b : Byte) (hi : 57 ≤ i) (hlt : i < content.length)
    (hb : content[i]? ≠ some b)
    (w : World) (hq : w.faults = []) (hfile : w.files path = some (content.set i b)) :
    (Open c path X w).1 = ⟨none, [], some (Error.cannotDecrypt path)⟩ := by
  obtain ⟨s, hkey, rfl⟩ := WrittenBy_container hwritten
  have hs : s.salt.toList.length = 32 := s.salt.2
  have hn : s.nonce.toList.length = 24 := s.nonce.2
  have h57 : ([Version] ++ s.salt.toList ++ s.nonce.toList).length = 57 := by simp [hs, hn]
  unfold container at hfile hlt hb
  have hle : ([Version] ++ s.salt.toList ++ s.nonce.toList).length ≤ i := by rw [h57]; exact hi
  rw [List.set_append_right i b hle] at hfile
  rw [List.getElem?_append_right hle] at hb
  have hj : i - ([Version] ++ s.salt.toList ++ s.nonce.toList).length <
      (c.Seal P s.nonce s.key).length := by
    rw [List.length_append] at hlt
    omega
  rw [Open_calm_container c path X w hq _ _ _ hfile, ← hkey, ht P s.nonce s.key _ b hj hb]

/-- C6 at a concrete input: in the 75-byte sample container the last payload
byte (offset 74, value 20) is replaced by 99. -/
theorem tamper_detected_witness :
    (Open sampleCrypto "f" [1, 2, 3]
      { files := fun p => if p = "f" then
          some ((container sampleCrypto (freshState sampleCrypto "f" [1, 2, 3] sampleRand)
            [10, 20]).set 74 99) else none,
        rand := [], faults := [] }).1 = ⟨none, [], some (Error.cannotDecrypt "f")⟩ :=
  tamper_detected sampleCrypto sampleCrypto_tamperEvident "f" [1, 2, 3] [10, 20]
    (container sampleCrypto (freshState sampleCrypto "f" [1, 2, 3] sampleRand) [10, 20])
    (Or.inl ⟨sampleWorld, by decide, by decide⟩) 74 99 (by decide) (by decide) (by decide)
    _ rfl (by decide)

/-- C7. Version gate: for a file that starts with a byte `b` other than 0x01,
`Open` returns the version-incompatibility error (and no State, no data)
whenever `os.Open` and the read of the version byte meet no I/O fault. The
result mentions neither the bytes after the first, nor the passphrase, nor the
primitives, and faults scheduled for the later reads cannot change it: the
version is checked before salt, nonce or ciphertext are read or the key is
derived. -/
theorem version_gate (c : Crypto) (w : World) (path : String) (X : List Byte) (b : Byte)
    (rest : List Byte) (hfile : w.files path = some (b :: rest)) (hb : b ≠ Version)
    (hq : ∀ x ∈ w.faults.take 2, x = false) :
    (Open c path X w).1 = ⟨none, [], some (Error.versionIncompatible b Version)⟩ := by
  obtain ⟨fs, rd, φ⟩ := w
  simp only at hfile
  have hv : (fill 1 [b]).head = b := rfl
  rcases φ with _ | ⟨x, _ | ⟨y, φ⟩⟩
  · simp [Open, osOpen, World.fault, hfile, Open.body, fileRead, hv, hb]
  · have hx : x = false := hq x (by simp)
    subst hx
    simp [Open, osOpen, World.fault, hfile, Open.body, fileRead, hv, hb]
  · have hx : x = false := hq x (by simp)
    have hy : y = false := hq y (by simp)
    subst hx hy
    simp [Open, osOpen, World.fault, hfile, Open.body, fileRead, hv, hb]

/-- C7 at a concrete input: the file `[2, 9, 9]`, with faults scheduled for the
reads that never happen. -/
theorem version_gate_witness :
    (Open sampleCrypto "g" [1, 2, 3] sampleBadVersionWorld).1 =
      ⟨none, [], some (Error.versionIncompatible 2 Version)⟩ :=
  version_gate sampleCrypto sampleBadVersionWorld "g" [1, 2, 3] 2 [9, 9] (by decide)
    (by decide) (by decide)

/-- C8. Truncated header: for every file shorter than 57 bytes (the empty file
included), every passphrase and every fault schedule, `Open` returns an error,
no State and no data, given that the cipher does not open a box shorter than
its tag. -/
theorem truncated_header_rejected (c : Crypto) (hshort : c.RejectsShort) (w : World)
    (path : String) (X content : List Byte) (hfile : w.files path = some content)
    (hlen : content.length < 57) :
    ∃ e, (Open c path X w).1 = ⟨none, [], some e⟩ := by
  rcases Open_shape c path X w with herr | h
  · exfalso
    obtain ⟨hcalm, _, _⟩ := Open_eq_ok (r := (Open c path X w).1) (v := (Open c path X w).2)
      rfl herr
    have hbody := Open_body_calm_short c hshort path X content w.calm rfl hlen
    apply hbody
    have hopen : (Open c path X w.calm).1 = (Open.body c path X content w.calm).1 := by
      unfold Open
      rw [osOpen_calm w.calm rfl path content hfile]
    rw [← hopen, hcalm]
    exact herr
  · exact h

/-- C8 at a concrete input: a 40-byte file, which ends inside the nonce. -/
theorem truncated_header_rejected_witness :
    ∃ e, (Open sampleCrypto "h" [1, 2, 3] sampleShortWorld).1 = ⟨none, [], some e⟩ :=
  truncated_header_rejected sampleCrypto sampleCrypto_rejectsShort sampleShortWorld "h"
    [1, 2, 3] (Version :: List.replicate 39 5) (by decide) (by decide)

/-! ## Create and Save -/

/-- C9. Create refuses to overwrite: if a file exists at `filename`, `Create`
returns a nil State and the file-exists error, and the world (the existing
file, every other file, the entropy stream) is unchanged. -/
theorem create_refuses_overwrite (c : Crypto) (w : World) (filename : String)
    (passphrase data content : List Byte) (hfile : w.files filename = some content) :
    Create c filename passphrase data w =
      (⟨none, some (Error.fileExists filename)⟩, w) := by
  simp [Create, osStat, hfile]

/-- C9 at a concrete input: the 40-byte file of the sample world. -/
theorem create_refuses_overwrite_witness :
    Create sampleCrypto "h" [1, 2, 3] [10, 20] sampleShortWorld =
      (⟨none, some (Error.fileExists "h")⟩, sampleShortWorld) :=
  create_refuses_overwrite sampleCrypto sampleShortWorld "h" [1, 2, 3] [10, 20]
    (Version :: List.replicate 39 5) (by decide)

/-- C10, what the code does instead: `Save` writes the State's nonce unchanged.
For the State `s` of a successful `Create(path, X, P)` and a `Save(P2)` that
succeeds right after it (under any fault schedule `φ`), the nonce stored in the
file (bytes 33-56) is `s.nonce` before the Save and `s.nonce` after it, so two
payloads are sealed under the same key and nonce. -/
theorem save_reuses_nonce (c : Crypto) (w : World) (path : String) (X P P2 : List Byte)
    (s : State) (φ : List Bool) (hcreate : (Create c path X P w).1 = ⟨some s, none⟩)
    (hsave : (s.Save c P2 ((Create c path X P w).2.withFaults φ)).1 = none) :
    ((Create c path X P w).2.files path).map storedNonce = some s.nonce.toList ∧
      ((s.Save c P2 ((Create c path X P w).2.withFaults φ)).2.files path).map storedNonce =
        some s.nonce.toList := by
  obtain ⟨hfn, _⟩ := state_of_Create_or_Open (Or.inl ⟨P, hcreate⟩)
  obtain ⟨_, hst, hfiles, _⟩ := Create_eq_ok (r := (Create c path X P w).1)
    (v := (Create c path X P w).2) rfl (by rw [hcreate])
  rw [hcreate] at hst
  simp only [Option.some.injEq] at hst
  obtain ⟨hfiles2, _⟩ := Save_eq_ok
    (v := (s.Save c P2 ((Create c path X P w).2.withFaults φ)).2) (Prod.ext hsave rfl)
  constructor
  · rw [hfiles, setFile_same, ← hst, Option.map_some', storedNonce_container]
  · rw [hfiles2, hfn, setFile_same, Option.map_some', storedNonce_container]

/-- C10 at a concrete input: the sample container, saved with the payload
`[30]`: the stored nonce is the same 24 bytes before and after. -/
theorem save_reuses_nonce_witness :
    ((Create sampleCrypto "f" [1, 2, 3] [10, 20] sampleWorld).2.files "f").map storedNonce =
        some (freshState sampleCrypto "f" [1, 2, 3] sampleRand).nonce.toList ∧
      (((freshState sampleCrypto "f" [1, 2, 3] sampleRand).Save sampleCrypto [30]
        ((Create sampleCrypto "f" [1, 2, 3] [10, 20] sampleWorld).2.withFaults [])).2.files
          "f").map storedNonce =
        some (freshState sampleCrypto "f" [1, 2, 3] sampleRand).nonce.toList :=
  save_reuses_nonce sampleCrypto sampleWorld "f" [1, 2, 3] [10, 20] [30]
    (freshState sampleCrypto "f" [1, 2, 3] sampleRand) [] (by decide) (by decide)

/-! ## Frame lemmas: which files a call can change -/

theorem fileWrite_frame {fp q : String} {b : List Byte} {w v : World} {x : Option Error}
    (h : fileWrite fp b w = (x, v)) (hq : q ≠ fp) : v.files q = w.files q := by
  unfold fileWrite at h
  have hf := fault_files w
  split at h
  · rename_i w2 heq
    simp only [heq] at hf
    simp only [Prod.mk.injEq] at h
    rw [← h.2, hf]
  · rename_i w2 heq
    simp only [heq] at hf
    simp only [Prod.mk.injEq] at h
    rw [← h.2]
    simp [setFile, hq, hf]

theorem osCreate_frame {fp q : String} {w v : World} {x : Option Error}
    (h : osCreate fp w = (x, v)) (hq : q ≠ fp) : v.files q = w.files q := by
  unfold osCreate at h
  have hf := fault_files w
  split at h
  · rename_i w2 heq
    simp only [heq] at hf
    simp only [Prod.mk.injEq] at h
    rw [← h.2, hf]
  · rename_i w2 heq
    simp only [heq] at hf
    simp only [Prod.mk.injEq] at h
    rw [← h.2]
    simp [setFile, hq, hf]

theorem osCreate_eq_err {fp : String} {w v : World} {e : Error}
    (h : osCreate fp w = (some e, v)) : v.files = w.files := by
  unfold osCreate at h
  have hf := fault_files w
  split at h
  · rename_i w2 heq
    simp only [heq] at hf
    simp only [Prod.mk.injEq] at h
    rw [← h.2, hf]
  · simp at h

theorem fileClose_files (w : World) : (fileClose w).2.files = w.files := by
  have h := congrArg World.files (fileClose_snd_calm w)
  exact h

theorem fileClose_frame {w v : World} {x : Option Error} (h : fileClose w = (x, v)) :
    v.files = w.files := by
  have h2 := fileClose_files w
  rw [h] at h2
  exact h2

theorem osRename_eq_err {p q : String} {w v : World} {e : Error}
    (h : osRename p q w = (some e, v)) : v.files = w.files := by
  unfold osRename at h
  have hf := fault_files w
  split at h
  · rename_i w2 heq
    simp only [heq] at hf
    simp only [Prod.mk.injEq] at h
    rw [← h.2, hf]
  · rename_i w2 heq
    simp only [heq] at hf
    split at h
    · simp only [Prod.mk.injEq] at h
      rw [← h.2, hf]
    · simp at h

theorem save_frame {c : Crypto} {s : State} {fp q : String} {data : List Byte} {w v : World}
    {x : Option Error} (h : s.save c fp data w = (x, v)) (hq : q ≠ fp) :
    v.files q = w.files q := by
  unfold State.save at h
  dsimp only at h
  split at h
  · rename_i wa ha
    simp only [Prod.mk.injEq] at h
    rw [← h.2, fileWrite_frame ha hq]
  · rename_i wa ha
    split at h
    · rename_i wb hb
      simp only [Prod.mk.injEq] at h
      rw [← h.2, fileWrite_frame hb hq, fileWrite_frame ha hq]
    · rename_i wb hb
      split at h
      · rename_i wc hc
        simp only [Prod.mk.injEq] at h
        rw [← h.2, fileWrite_frame hc hq, fileWrite_frame hb hq, fileWrite_frame ha hq]
      · rename_i wc hc
        split at h
        · rename_i wd hd
          simp only [Prod.mk.injEq] at h
          rw [← h.2, fileWrite_frame hd hq, fileWrite_frame hc hq, fileWrite_frame hb hq,
            fileWrite_frame ha hq]
        · rename_i wd hd
          simp only [Prod.mk.injEq] at h
          rw [← h.2, fileWrite_frame hd hq, fileWrite_frame hc hq, fileWrite_frame hb hq,
            fileWrite_frame ha hq]

/-! ## `Open` depends on the file only -/

theorem Open_body_calm_indep (c : Crypto) (fn : String) (X rd : List Byte) (w v : World)
    (hw : w.faults = []) (hv : v.faults = []) :
    (Open.body c fn X rd w).1 = (Open.body c fn X rd v).1 := by
  unfold Open.body
  by_cases h0 : rd = []
  · subst h0
    rw [fileRead_calm_nil w hw 1 (by decide), fileRead_calm_nil v hv 1 (by decide)]
  · rw [fileRead_calm w hw 1 rd h0, fileRead_calm v hv 1 rd h0]
    dsimp only
    by_cases hver : (fill 1 (rd.take 1)).head ≠ Version
    · rw [if_pos hver, if_pos hver]
    · rw [if_neg hver, if_neg hver]
      by_cases h1 : rd.drop 1 = []
      · rw [h1, fileRead_calm_nil w hw 32 (by decide), fileRead_calm_nil v hv 32 (by decide)]
      · rw [fileRead_calm w hw 32 _ h1, fileRead_calm v hv 32 _ h1]
        dsimp only
        by_cases h2 : (rd.drop 1).drop 32 = []
        · rw [h2, fileRead_calm_nil w hw 24 (by decide), fileRead_calm_nil v hv 24 (by decide)]
        · rw [fileRead_calm w hw 24 _ h2, fileRead_calm v hv 24 _ h2]
          dsimp only
          rw [ioutilReadAll_calm w hw, ioutilReadAll_calm v hv]
          dsimp only
          cases c.Open (List.drop 24 (List.drop 32 (List.drop 1 rd)))
            (fill 24 (List.take 24 (List.drop 32 (List.drop 1 rd))))
            (deriveKey c X (fill 32 (List.take 32 (List.drop 1 rd)))) <;> rfl

theorem Open_calm_congr (c : Crypto) (fn : String) (X : List Byte) (w v : World)
    (hw : w.faults = []) (hv : v.faults = []) (hfile : w.files fn = v.files fn) :
    (Open c fn X w).1 = (Open c fn X v).1 := by
  unfold Open osOpen
  rw [fault_calm w hw, fault_calm v hv]
  dsimp only
  rw [hfile]
  cases v.files fn with
  | none => rfl
  | some content =>
    dsimp only
    exact Open_body_calm_indep c fn X content w v hw hv

/-! ## Save: errors and crashes -/

/-- C12. Save is atomic on error: whenever `s.Save(data)` returns an error (the
temp file cannot be created, a write fails, close fails or the rename fails;
any world, any fault schedule), the file at `s.filename` is what it was before
the call. -/
theorem save_atomic_on_error (c : Crypto) (s : State) (data : List Byte) (w : World)
    (herr : (s.Save c data w).1 ≠ none) :
    (s.Save c data w).2.files s.filename = w.files s.filename := by
  have hne : s.filename ≠ s.filename ++ ".new" := fun h => tmpfile_ne s.filename h.symm
  have h0 := osRemove_frame (s.filename ++ ".new") s.filename w hne
  unfold State.Save at herr ⊢
  dsimp only at herr ⊢
  split
  · rename_i e wa ha
    rw [osCreate_frame ha hne, h0]
  · rename_i wa ha
    split
    · rename_i e wb hb
      rw [osRemove_frame _ _ _ hne, fileClose_files, save_frame hb hne, osCreate_frame ha hne, h0]
    · rename_i wb hb
      split
      · rename_i e wc hc
        rw [osRemove_frame _ _ _ hne, fileClose_frame hc, save_frame hb hne,
          osCreate_frame ha hne, h0]
      · rename_i wc hc
        rw [ha] at herr
        dsimp only at herr
        rw [hb] at herr
        dsimp only at herr
        rw [hc] at herr
        dsimp only at herr
        cases hren : osRename (s.filename ++ ".new") s.filename wc with
        | mk x wd =>
          rw [hren] at herr
          cases x with
          | none => exact absurd rfl herr
          | some e =>
            rw [osRename_eq_err hren, fileClose_frame hc, save_frame hb hne,
              osCreate_frame ha hne, h0]

/-- C12 at a concrete input: the sample container, saved with `[30]` while the
second write to the temp file fails. -/
theorem save_atomic_on_error_witness :
    ((freshState sampleCrypto "f" [1, 2, 3] sampleRand).Save sampleCrypto [30]
      (sampleStored [false, false, false, true])).2.files "f" =
      (sampleStored [false, false, false, true]).files "f" :=
  save_atomic_on_error sampleCrypto (freshState sampleCrypto "f" [1, 2, 3] sampleRand) [30]
    (sampleStored [false, false, false, true]) (by decide)

theorem Save_calm (c : Crypto) (s : State) (data : List Byte) (w : World)
    (hq : w.faults = []) :
    s.Save c data w = (none, World.mk
      (setFile (setFile w.files (s.filename ++ ".new") none) s.filename
        (some (container c s data))) w.rand []) := by
  obtain ⟨fs, rd, φ⟩ := w
  simp only at hq
  subst hq
  have hw0 : (osRemove (s.filename ++ ".new") ⟨fs, rd, []⟩).2 =
      ⟨setFile fs (s.filename ++ ".new") none, rd, []⟩ := osRemove_calm _ _ rfl
  unfold State.Save
  dsimp only
  rw [hw0]
  simp [osCreate, World.fault, save_calm, fileClose, osRename, setFile_same, setFile_setFile]

theorem osRemove_snd (p : String) (fs : String → Option (List Byte)) (rd : List Byte) :
    (osRemove p (World.mk fs rd [])).2 = World.mk (setFile fs p none) rd [] :=
  osRemove_calm p (World.mk fs rd []) rfl

theorem SaveSteps_take_files (c : Crypto) (s : State) (data : List Byte) (w : World)
    (k : Nat) (hk : k < 8) :
    (runSteps ((s.SaveSteps c data).take k) w.calm).files s.filename = w.files s.filename ∧
      (runSteps ((s.SaveSteps c data).take k) w.calm).faults = [] := by
  have hne : s.filename ≠ s.filename ++ ".new" := fun h => tmpfile_ne s.filename h.symm
  obtain ⟨fs, rd, φ⟩ := w
  interval_cases k <;>
    simp [runSteps, State.SaveSteps, FsStep.run, osRemove_snd, osCreate, fileWrite, fileClose,
      World.fault, World.calm, setFile, hne]

/-- C11. Crash safety of Save. In a world without I/O faults, `s.Save(data)`
succeeds and its effect is that of the eight steps of `SaveSteps` (remove temp,
create temp, write version, salt, nonce, ciphertext, close, rename) run in
order. After every prefix of fewer than eight steps (a crash before the rename
has happened) the file at `s.filename` is exactly what it was before the call,
and it opens, under any passphrase, to exactly what it opened to before; after
all eight steps it is exactly the complete new container. So after every
prefix it is the complete old or the complete new file, never a partial one. -/
theorem save_crash_safe (c : Crypto) (s : State) (data : List Byte) (w : World) :
    s.Save c data w.calm = (none, runSteps (s.SaveSteps c data) w.calm) ∧
    (∀ k, k < 8 →
      (runSteps ((s.SaveSteps c data).take k) w.calm).files s.filename = w.files s.filename ∧
      ∀ X, (Open c s.filename X (runSteps ((s.SaveSteps c data).take k) w.calm)).1 =
        (Open c s.filename X w.calm).1) ∧
    (∀ k, 8 ≤ k →
      (runSteps ((s.SaveSteps c data).take k) w.calm).files s.filename =
        some (container c s data)) ∧
    (∀ k, (runSteps ((s.SaveSteps c data).take k) w.calm).files s.filename =
        w.files s.filename ∨
      (runSteps ((s.SaveSteps c data).take k) w.calm).files s.filename =
        some (container c s data)) := by
  have hne : s.filename ≠ s.filename ++ ".new" := fun h => tmpfile_ne s.filename h.symm
  have hall : runSteps (s.SaveSteps c data) w.calm = World.mk
      (setFile (setFile w.files (s.filename ++ ".new") none) s.filename
        (some (container c s data))) w.rand [] := by
    obtain ⟨fs, rd, φ⟩ := w
    simp [runSteps, State.SaveSteps, FsStep.run, osRemove_snd, osCreate, fileWrite, fileClose,
      osRename, World.fault, World.calm, setFile_same, setFile_setFile, container]
  have h8 : ∀ k, 8 ≤ k →
      (runSteps ((s.SaveSteps c data).take k) w.calm).files s.filename =
        some (container c s data) := by
    intro k hk
    rw [List.take_of_length_le (by simpa [State.SaveSteps] using hk), hall]
    exact setFile_same _ _ _
  refine ⟨?_, ?_, h8, ?_⟩
  · rw [Save_calm c s data w.calm rfl, hall]
    rfl
  · intro k hk
    obtain ⟨hf, hq⟩ := SaveSteps_take_files c s data w k hk
    exact ⟨hf, fun X => Open_calm_congr c s.filename X _ _ hq rfl hf⟩
  · intro k
    by_cases hk : k < 8
    · exact Or.inl (SaveSteps_take_files c s data w k hk).1
    · exact Or.inr (h8 k (by omega))

/-! ## Frame lemmas for `Open` and `Create` -/

theorem fileRead_frame {n : Nat} {rd : List Byte} {w v : World}
    {x : List Byte × List Byte × Option Error} (h : fileRead n rd w = (x, v)) :
    v.calm = w.calm := by
  have h2 := congrArg Prod.snd h
  have hf := fault_snd_calm w
  unfold fileRead at h2
  split at h2
  · rename_i w2 heq
    simp only [heq] at hf
    simp only at h2
    rw [← h2, hf]
  · rename_i w2 heq
    simp only [heq] at hf
    split at h2
    · simp only at h2
      rw [← h2, hf]
    · simp only at h2
      rw [← h2, hf]

theorem ioutilReadAll_frame {rd : List Byte} {w v : World} {x : List Byte × Option Error}
    (h : ioutilReadAll rd w = (x, v)) : v.calm = w.calm := by
  have h2 := congrArg Prod.snd h
  have hf := fault_snd_calm w
  unfold ioutilReadAll at h2
  split at h2
  · rename_i w2 heq
    simp only [heq] at hf
    simp only at h2
    rw [← h2, hf]
  · rename_i w2 heq
    simp only [heq] at hf
    simp only at h2
    rw [← h2, hf]

theorem osOpen_frame {fn : String} {w v : World} {x : List Byte × Option Error}
    (h : osOpen fn w = (x, v)) : v.calm = w.calm := by
  have h2 := congrArg Prod.snd h
  have hf := fault_snd_calm w
  unfold osOpen at h2
  split at h2
  · rename_i w2 heq
    simp only [heq] at hf
    simp only at h2
    rw [← h2, hf]
  · rename_i w2 heq
    simp only [heq] at hf
    split at h2
    · simp only at h2
      rw [← h2, hf]
    · simp only at h2
      rw [← h2, hf]

theorem Open_body_frame (c : Crypto) (fn : String) (X rd : List Byte) (w : World) :
    (Open.body c fn X rd w).2.calm = w.calm := by
  unfold Open.body
  split
  · rename_i h1
    exact fileRead_frame h1
  · rename_i h1
    have e1 := fileRead_frame h1
    split
    · exact e1
    · split
      · rename_i h2
        rw [fileRead_frame h2, e1]
      · rename_i h2
        have e2 := fileRead_frame h2
        split
        · rename_i h3
          rw [fileRead_frame h3, e2, e1]
        · rename_i h3
          have e3 := fileRead_frame h3
          dsimp only
          split
          · rename_i h4
            rw [ioutilReadAll_frame h4, e3, e2, e1]
          · rename_i h4
            have e4 := ioutilReadAll_frame h4
            split
            · show _ = _
              rw [e4, e3, e2, e1]
            · show _ = _
              rw [e4, e3, e2, e1]

theorem Open_frame (c : Crypto) (fn : String) (X : List Byte) (w : World) :
    (Open c fn X w).2.calm = w.calm := by
  unfold Open
  split
  · rename_i h1
    exact osOpen_frame h1
  · rename_i h1
    dsimp only
    rw [fileClose_snd_calm, Open_body_frame, osOpen_frame h1]

theorem Open_files (c : Crypto) (fn : String) (X : List Byte) (w : World) :
    (Open c fn X w).2.files = w.files ∧ (Open c fn X w).2.rand = w.rand :=
  files_of_calm_eq (Open_frame c fn X w)

theorem randRead_frame {n : Nat} {w v : World} {x : List Byte × Option Error}
    (h : randRead n w = (x, v)) : v.files = w.files := by
  have h2 := congrArg Prod.snd h
  unfold randRead at h2
  split at h2
  · simp only at h2
    rw [← h2]
  · simp only at h2
    rw [← h2]

/-! ## Counting the pending I/O faults -/

theorem count_tail_le (l : List Bool) : l.tail.count true ≤ l.count true := by
  cases l with
  | nil => simp
  | cons b bs => simp [List.count_cons]

theorem count_tail_of_head (l : List Bool) (h : l.head? = some true) :
    l.tail.count true + 1 = l.count true := by
  cases l with
  | nil => simp at h
  | cons b bs =>
    simp only [List.head?_cons, Option.some.injEq] at h
    subst h
    simp

theorem head_of_count_zero (l : List Bool) (h : l.count true = 0) : l.head? ≠ some true := by
  intro hh
  have := count_tail_of_head l hh
  omega

theorem fault_count (w : World) : w.fault.2.faults.count true ≤ w.faults.count true := by
  rw [fault_faults]
  exact count_tail_le _

theorem fault_count_true (w : World) (h : w.fault.1 = true) :
    w.fault.2.faults.count true + 1 ≤ w.faults.count true := by
  rw [fault_faults]
  exact le_of_eq (count_tail_of_head _ ((fault_fst w).1 h))

theorem osCreate_count {fp : String} {w v : World} {x : Option Error}
    (h : osCreate fp w = (x, v)) :
    v.faults.count true ≤ w.faults.count true ∧
      (x ≠ none → v.faults.count true + 1 ≤ w.faults.count true) := by
  unfold osCreate at h
  have h1 := fault_count w
  have h2 := fault_count_true w
  split at h
  · rename_i w2 heq
    rw [heq] at h1 h2
    simp only [Prod.mk.injEq] at h
    obtain ⟨_, hv⟩ := h
    subst hv
    exact ⟨h1, fun _ => h2 rfl⟩
  · rename_i w2 heq
    rw [heq] at h1
    simp only [Prod.mk.injEq] at h
    obtain ⟨hx, hv⟩ := h
    subst hv hx
    exact ⟨h1, fun hne => absurd rfl hne⟩

theorem fileWrite_count {fp : String} {b : List Byte} {w v : World} {x : Option Error}
    (h : fileWrite fp b w = (x, v)) :
    v.faults.count true ≤ w.faults.count true ∧
      (x ≠ none → v.faults.count true + 1 ≤ w.faults.count true) := by
  unfold fileWrite at h
  have h1 := fault_count w
  have h2 := fault_count_true w
  split at h
  · rename_i w2 heq
    rw [heq] at h1 h2
    simp only [Prod.mk.injEq] at h
    obtain ⟨_, hv⟩ := h
    subst hv
    exact ⟨h1, fun _ => h2 rfl⟩
  · rename_i w2 heq
    rw [heq] at h1
    simp only [Prod.mk.injEq] at h
    obtain ⟨hx, hv⟩ := h
    subst hv hx
    exact ⟨h1, fun hne => absurd rfl hne⟩

theorem fileClose_count {w v : World} {x : Option Error} (h : fileClose w = (x, v)) :
    v.faults.count true ≤ w.faults.count true ∧
      (x ≠ none → v.faults.count true + 1 ≤ w.faults.count true) := by
  unfold fileClose at h
  have h1 := fault_count w
  have h2 := fault_count_true w
  split at h
  · rename_i w2 heq
    rw [heq] at h1 h2
    simp only [Prod.mk.injEq] at h
    obtain ⟨_, hv⟩ := h
    subst hv
    exact ⟨h1, fun _ => h2 rfl⟩
  · rename_i w2 heq
    rw [heq] at h1
    simp only [Prod.mk.injEq] at h
    obtain ⟨hx, hv⟩ := h
    subst hv hx
    exact ⟨h1, fun hne => absurd rfl hne⟩

theorem fileClose_count_snd (w : World) :
    (fileClose w).2.faults.count true ≤ w.faults.count true :=
  (fileClose_count (x := (fileClose w).1) (v := (fileClose w).2) rfl).1

theorem save_count {c : Crypto} {s : State} {fp : String} {data : List Byte} {w v : World}
    {x : Option Error} (h : s.save c fp data w = (x, v)) :
    v.faults.count true ≤ w.faults.count true ∧
      (x ≠ none → v.faults.count true + 1 ≤ w.faults.count true) := by
  unfold State.save at h
  dsimp only at h
  split at h
  · rename_i wa ha
    simp only [Prod.mk.injEq] at h
    obtain ⟨_, hv⟩ := h
    subst hv
    have ca := fileWrite_count ha
    exact ⟨ca.1, fun _ => ca.2 (by simp)⟩
  · rename_i wa ha
    have ca := (fileWrite_count ha).1
    split at h
    · rename_i wb hb
      simp only [Prod.mk.injEq] at h
      obtain ⟨_, hv⟩ := h
      subst hv
      have cb := fileWrite_count hb
      have cb2 := cb.2 (by simp)
      exact ⟨by omega, fun _ => by omega⟩
    · rename_i wb hb
      have cb := (fileWrite_count hb).1
      split at h
      · rename_i wc hc
        simp only [Prod.mk.injEq] at h
        obtain ⟨_, hv⟩ := h
        subst hv
        have cc := fileWrite_count hc
        have cc2 := cc.2 (by simp)
        exact ⟨by omega, fun _ => by omega⟩
      · rename_i wc hc
        have cc := (fileWrite_count hc).1
        split at h
        · rename_i wd hd
          simp only [Prod.mk.injEq] at h
          obtain ⟨_, hv⟩ := h
          subst hv
          have cd := fileWrite_count hd
          have cd2 := cd.2 (by simp)
          exact ⟨by omega, fun _ => by omega⟩
        · rename_i wd hd
          simp only [Prod.mk.injEq] at h
          obtain ⟨hx, hv⟩ := h
          subst hv hx
          have cd := (fileWrite_count hd).1
          exact ⟨by omega, fun hne => absurd rfl hne⟩

theorem randRead_faults {n : Nat} {w v : World} {x : List Byte × Option Error}
    (h : randRead n w = (x, v)) : v.faults = w.faults := by
  have h2 := congrArg Prod.snd h
  unfold randRead at h2
  split at h2
  · simp only at h2
    rw [← h2]
  · simp only at h2
    rw [← h2]

theorem randRead_err_ne_fault {n : Nat} {w v : World} {bs : List Byte} {e : Error}
    (h : randRead n w = ((bs, some e), v)) : e ≠ Error.fault := by
  unfold randRead at h
  split at h
  · simp at h
  · simp only [Prod.mk.injEq, Option.some.injEq] at h
    obtain ⟨⟨_, he⟩, _⟩ := h
    rw [← he]
    split <;> simp

theorem osRemove_count (p : String) (w : World) :
    (osRemove p w).2.faults.count true ≤ w.faults.count true := by
  rw [osRemove_faults]
  exact count_tail_le _

/-- With no I/O fault pending, `os.Remove` removes the file. -/
theorem osRemove_of_count_zero (p : String) (w : World) (h : w.faults.count true = 0) :
    (osRemove p w).2.files p = none := by
  rw [osRemove_ok p w (head_of_count_zero _ h), setFile_same]

theorem fileRead_count {n : Nat} {rd : List Byte} {w v : World}
    {x : List Byte × List Byte × Option Error} (h : fileRead n rd w = (x, v)) :
    v.faults.count true ≤ w.faults.count true := by
  have h2 := congrArg Prod.snd h
  have hf := fault_count w
  unfold fileRead at h2
  split at h2
  · rename_i w2 heq
    simp only [heq] at hf
    simp only at h2
    rw [← h2]
    exact hf
  · rename_i w2 heq
    simp only [heq] at hf
    split at h2
    · simp only at h2
      rw [← h2]
      exact hf
    · simp only at h2
      rw [← h2]
      exact hf

theorem ioutilReadAll_count {rd : List Byte} {w v : World} {x : List Byte × Option Error}
    (h : ioutilReadAll rd w = (x, v)) : v.faults.count true ≤ w.faults.count true := by
  have h2 := congrArg Prod.snd h
  have hf := fault_count w
  unfold ioutilReadAll at h2
  split at h2
  · rename_i w2 heq
    simp only [heq] at hf
    simp only at h2
    rw [← h2]
    exact hf
  · rename_i w2 heq
    simp only [heq] at hf
    simp only at h2
    rw [← h2]
    exact hf

theorem osOpen_count {fn : String} {w v : World} {x : List Byte × Option Error}
    (h : osOpen fn w = (x, v)) : v.faults.count true ≤ w.faults.count true := by
  have h2 := congrArg Prod.snd h
  have hf := fault_count w
  unfold osOpen at h2
  split at h2
  · rename_i w2 heq
    simp only [heq] at hf
    simp only at h2
    rw [← h2]
    exact hf
  · rename_i w2 heq
    simp only [heq] at hf
    split at h2
    · simp only at h2
      rw [← h2]
      exact hf
    · simp only at h2
      rw [← h2]
      exact hf

theorem Open_body_count (c : Crypto) (fn : String) (X rd : List Byte) (w : World) :
    (Open.body c fn X rd w).2.faults.count true ≤ w.faults.count true := by
  unfold Open.body
  split
  · rename_i h1
    exact fileRead_count h1
  · rename_i h1
    have e1 := fileRead_count h1
    split
    · exact e1
    · split
      · rename_i h2
        exact le_trans (fileRead_count h2) e1
      · rename_i h2
        have e2 := le_trans (fileRead_count h2) e1
        split
        · rename_i h3
          exact le_trans (fileRead_count h3) e2
        · rename_i h3
          have e3 := le_trans (fileRead_count h3) e2
          dsimp only
          split
          · rename_i h4
            exact le_trans (ioutilReadAll_count h4) e3
          · rename_i h4
            have e4 := le_trans (ioutilReadAll_count h4) e3
            split
            · exact e4
            · exact e4

theorem Open_count (c : Crypto) (fn : String) (X : List Byte) (w : World) :
    (Open c fn X w).2.faults.count true ≤ w.faults.count true := by
  unfold Open
  split
  · rename_i h1
    exact osOpen_count h1
  · rename_i h1
    dsimp only
    exact le_trans (fileClose_count_snd _)
      (le_trans (Open_body_count _ _ _ _ _) (osOpen_count h1))

/-- A call of `os.Remove` that the fault schedule lets through: the world
after it. -/
theorem osRemove_snd_ok (p : String) (w : World) (h : w.faults.head? ≠ some true) :
    (osRemove p w).2 = World.mk (setFile w.files p none) w.rand w.faults.tail := by
  have h1 := osRemove_ok p w h
  have h2 := osRemove_rand p w
  have h3 := osRemove_faults p w
  cases hrem : (osRemove p w).2 with
  | mk f r q =>
    rw [hrem] at h1 h2 h3
    simp only at h1 h2 h3
    subst h1 h2 h3
    rfl

theorem Create_files (c : Crypto) (fn : String) (X P : List Byte) (w : World) :
    (∀ q, q ≠ fn → (Create c fn X P w).2.files q = w.files q) ∧
      ((Create c fn X P w).1.err ≠ none →
        (Create c fn X P w).1.state = none ∧
          (w.files fn = none → w.faults.count true ≤ 1 →
            (Create c fn X P w).2.files fn = none)) := by
  unfold Create
  split
  · exact ⟨fun _ _ => rfl, fun _ => ⟨rfl, fun h _ => h⟩⟩
  · split
    · rename_i ha
      have fa := randRead_frame ha
      exact ⟨fun q _ => by rw [fa], fun _ => ⟨rfl, fun h _ => by rw [fa]; exact h⟩⟩
    · rename_i ha
      have fa := randRead_frame ha
      have qa := randRead_faults ha
      split
      · rename_i hb
        have fb := randRead_frame hb
        exact ⟨fun q _ => by rw [fb, fa], fun _ => ⟨rfl, fun h _ => by rw [fb, fa]; exact h⟩⟩
      · rename_i hb
        have fb := randRead_frame hb
        have qb := randRead_faults hb
        dsimp only
        split
        · rename_i hc
          have fc := osCreate_eq_err hc
          exact ⟨fun q _ => by rw [fc, fb, fa],
            fun _ => ⟨rfl, fun h _ => by rw [fc, fb, fa]; exact h⟩⟩
        · rename_i hc
          have cc := (osCreate_count hc).1
          rw [qb, qa] at cc
          split
          · rename_i err w4 hd
            have cd := (save_count hd).2 (by simp)
            refine ⟨fun q hq => ?_, fun _ => ⟨rfl, fun _ h1 => ?_⟩⟩
            · rw [osRemove_frame _ _ _ hq, fileClose_files, save_frame hd hq,
                osCreate_frame hc hq, fb, fa]
            · have ce := fileClose_count_snd w4
              exact osRemove_of_count_zero _ _ (by omega)
          · rename_i hd
            have cd := (save_count hd).1
            split
            · rename_i he
              have ce := (fileClose_count he).2 (by simp)
              refine ⟨fun q hq => ?_, fun _ => ⟨rfl, fun _ h1 => ?_⟩⟩
              · rw [osRemove_frame _ _ _ hq, fileClose_frame he, save_frame hd hq,
                  osCreate_frame hc hq, fb, fa]
              · exact osRemove_of_count_zero _ _ (by omega)
            · rename_i he
              refine ⟨fun q hq => ?_, fun h => absurd rfl h⟩
              rw [fileClose_frame he, save_frame hd hq, osCreate_frame hc hq, fb, fa]

/-- An I/O error returned by `Create` has used up one pending fault. -/
theorem Create_count (c : Crypto) (fn : String) (X P : List Byte) (w : World)
    (h : (Create c fn X P w).1.err = some Error.fault) :
    (Create c fn X P w).2.faults.count true + 1 ≤ w.faults.count true := by
  unfold Create at h ⊢
  split
  · rename_i hs
    simp [hs] at h
  · rename_i hs
    rw [if_neg hs] at h
    split
    · rename_i ha
      rw [ha] at h
      simp only [Option.some.injEq] at h
      exact absurd h (randRead_err_ne_fault ha)
    · rename_i ha
      have qa := randRead_faults ha
      rw [ha] at h
      dsimp only at h
      split
      · rename_i hb
        rw [hb] at h
        simp only [Option.some.injEq] at h
        exact absurd h (randRead_err_ne_fault hb)
      · rename_i hb
        have qb := randRead_faults hb
        rw [hb] at h
        dsimp only at h ⊢
        split
        · rename_i hc
          have cc := (osCreate_count hc).2 (by simp)
          rw [qb, qa] at cc
          exact cc
        · rename_i hc
          have cc := (osCreate_count hc).1
          rw [qb, qa] at cc
          split
          · rename_i err w4 hd
            have cd := (save_count hd).2 (by simp)
            have ce := fileClose_count_snd w4
            have cf := osRemove_count fn (fileClose w4).2
            dsimp only
            omega
          · rename_i hd
            have cd := (save_count hd).1
            split
            · rename_i err w5 he
              have ce := (fileClose_count he).2 (by simp)
              have cf := osRemove_count fn w5
              dsimp only
              omega
            · rename_i he
              rw [hc] at h
              dsimp only at h
              rw [hd] at h
              dsimp only at h
              rw [he] at h
              simp at h

/-! ## Create and Rekey: errors -/

/-- C15 as stated fails when the cleanup fails as well: `Create` in the sample
world (no file at `"f"`), with the write of the salt (the third checked call)
failing and then the `os.Remove` of the cleanup (the fifth) failing, returns
the I/O error, and the file `"f"` remains, holding the version byte alone. -/
theorem create_failed_remove_leaves_partial_file :
    (sampleWorld.withFaults [false, false, true, false, true]).files "f" = none ∧
    (Create sampleCrypto "f" [1, 2, 3] [10, 20]
      (sampleWorld.withFaults [false, false, true, false, true])).1 =
        ⟨none, some Error.fault⟩ ∧
    (Create sampleCrypto "f" [1, 2, 3] [10, 20]
      (sampleWorld.withFaults [false, false, true, false, true])).2.files "f" =
        some [Version] := by
  decide

/-- C15, amended. Whenever `Create` returns an error in a world where no file
existed at `filename` (so the error is not the file-exists error; in particular
whenever a write of version, salt, nonce or ciphertext fails, or close fails,
after the file has been created), the returned State is nil; and no file exists
at `filename` afterwards provided at most one I/O fault is pending, so that the
`os.Remove` of the cleanup, whose error `Create` discards, does not fail as
well. -/
theorem create_leaves_no_partial_file (c : Crypto) (filename : String)
    (passphrase data : List Byte) (w : World) (hnew : w.files filename = none)
    (herr : (Create c filename passphrase data w).1.err ≠ none) :
    (Create c filename passphrase data w).1.state = none ∧
      (w.faults.count true ≤ 1 →
        (Create c filename passphrase data w).2.files filename = none) := by
  obtain ⟨hstate, hfile⟩ := (Create_files c filename passphrase data w).2 herr
  exact ⟨hstate, hfile hnew⟩

/-- C15 amended, at a concrete input: `Create` in the sample world while the
write of the nonce (the fourth checked call) fails. -/
theorem create_leaves_no_partial_file_witness :
    (Create sampleCrypto "f" [1, 2, 3] [10, 20]
        (sampleWorld.withFaults [false, false, false, true])).1.state = none ∧
      (Create sampleCrypto "f" [1, 2, 3] [10, 20]
        (sampleWorld.withFaults [false, false, false, true])).2.files "f" = none :=
  ⟨(create_leaves_no_partial_file sampleCrypto "f" [1, 2, 3] [10, 20]
      (sampleWorld.withFaults [false, false, false, true]) rfl (by decide)).1,
    (create_leaves_no_partial_file sampleCrypto "f" [1, 2, 3] [10, 20]
      (sampleWorld.withFaults [false, false, false, true]) rfl (by decide)).2 (by decide)⟩

/-- C14. Rekey with a wrong old passphrase changes nothing: if
`Open(filename, oldPassphrase)` fails (for whatever reason), `Rekey` returns
exactly that error, and the whole file system and the entropy stream are
unchanged. -/
theorem rekey_wrong_old_passphrase (c : Crypto) (filename : String)
    (oldPassphrase newPassphrase : List Byte) (w : World)
    (herr : (Open c filename oldPassphrase w).1.err ≠ none) :
    (Rekey c filename oldPassphrase newPassphrase w).1 =
        (Open c filename oldPassphrase w).1.err ∧
      (Rekey c filename oldPassphrase newPassphrase w).2.files = w.files ∧
      (Rekey c filename oldPassphrase newPassphrase w).2.rand = w.rand := by
  obtain ⟨hf, hr⟩ := Open_files c filename oldPassphrase w
  unfold Rekey
  split
  · rename_i st d e wa ha
    rw [ha] at hf hr
    rw [ha]
    exact ⟨rfl, hf, hr⟩
  · rename_i st d wa ha
    rw [ha] at herr
    exact absurd rfl herr

/-- C14 at a concrete input: the sample container, rekeyed with the wrong old
passphrase `[9]`. -/
theorem rekey_wrong_old_passphrase_witness :
    (Rekey sampleCrypto "f" [9] [4, 5] (sampleStored [])).1 =
        (Open sampleCrypto "f" [9] (sampleStored [])).1.err ∧
      (Rekey sampleCrypto "f" [9] [4, 5] (sampleStored [])).2.files = (sampleStored []).files ∧
      (Rekey sampleCrypto "f" [9] [4, 5] (sampleStored [])).2.rand = (sampleStored []).rand :=
  rekey_wrong_old_passphrase sampleCrypto "f" [9] [4, 5] (sampleStored []) (by decide)

/-- C13 as stated fails in two ways, shown in the sample world holding the
container of `Create("f", [1, 2, 3], [10, 20])`, where no file is at `"f.new"`.
With the fourteenth checked system call (the `os.Rename` of `Rekey`) failing,
`Rekey` returns the error while the temp file `"f.new"` remains and holds the
complete new container. With the tenth call (the write of the salt inside
`Create`) and the twelfth (the `os.Remove` of the cleanup) failing, `Rekey`
returns the error while `"f.new"` remains and holds the version byte alone. -/
theorem rekey_failed_rename_leaves_temp :
    (sampleStored []).files "f.new" = none ∧
    (Rekey sampleCrypto "f" [1, 2, 3] [4, 5]
      (sampleStored (List.replicate 13 false ++ [true]))).1 = some Error.fault ∧
    (Rekey sampleCrypto "f" [1, 2, 3] [4, 5]
      (sampleStored (List.replicate 13 false ++ [true]))).2.files "f.new" =
      some (container sampleCrypto
        (freshState sampleCrypto "f.new" [4, 5] (sampleRand.drop 56)) [10, 20]) ∧
    (Rekey sampleCrypto "f" [1, 2, 3] [4, 5]
      (sampleStored (List.replicate 9 false ++ [true, false, true]))).1 = some Error.fault ∧
    (Rekey sampleCrypto "f" [1, 2, 3] [4, 5]
      (sampleStored (List.replicate 9 false ++ [true, false, true]))).2.files "f.new" =
      some [Version] := by
  decide

/-- C13, amended. Whenever `Rekey(filename, old, new)` returns an error, the
file at `filename` is what it was before the call; and whenever the error is an
I/O failure inside the `Create` of the temp file (`Open` succeeded and `Create`
returned the error of a failed `os.Create`, write or close) and at most one I/O
fault is pending, so that the `os.Remove` of the cleanup does not fail as well,
no file remains at `filename+".new"`. -/
theorem rekey_failure_cleanup (c : Crypto) (filename : String) (X Y : List Byte) (w : World)
    (herr : (Rekey c filename X Y w).1 ≠ none) :
    (Rekey c filename X Y w).2.files filename = w.files filename ∧
      ((Open c filename X w).1.err = none →
        (Create c (filename ++ ".new") Y (Open c filename X w).1.data
          (osRemove (filename ++ ".new") (Open c filename X w).2).2).1.err =
            some Error.fault →
        w.faults.count true ≤ 1 →
        (Rekey c filename X Y w).2.files (filename ++ ".new") = none) := by
  have hne : filename ≠ filename ++ ".new" := fun h => tmpfile_ne filename h.symm
  obtain ⟨hf, _⟩ := Open_files c filename X w
  have hA := Open_count c filename X w
  unfold Rekey at herr ⊢
  split
  · rename_i st d e wa ha
    rw [ha] at hf
    refine ⟨by rw [hf], fun h => ?_⟩
    rw [ha] at h
    simp at h
  · rename_i st d wa ha
    rw [ha] at hf herr hA
    rw [ha]
    dsimp only at hf herr hA ⊢
    have hcf := Create_files c (filename ++ ".new") Y d (osRemove (filename ++ ".new") wa).2
    split
    · rename_i st2 e wb hb
      refine ⟨?_, fun _ hce h1 => ?_⟩
      · rw [hb] at hcf
        rw [hcf.1 filename hne, osRemove_frame _ _ _ hne, hf]
      · have hC := Create_count c (filename ++ ".new") Y d
          (osRemove (filename ++ ".new") wa).2 hce
        have hT := osRemove_faults (filename ++ ".new") wa
        have hle := osRemove_count (filename ++ ".new") wa
        have hhead : wa.faults.head? ≠ some true := by
          intro hh
          have hcount := count_tail_of_head _ hh
          rw [hT] at hC
          omega
        have hnone : (osRemove (filename ++ ".new") wa).2.files (filename ++ ".new") =
            none := by
          rw [osRemove_ok _ _ hhead, setFile_same]
        have hfin := (hcf.2 (by rw [hce]; simp)).2 hnone (by omega)
        rw [hb] at hfin
        exact hfin
    · rename_i st2 wb hb
      rw [hb] at hcf herr
      dsimp only at herr
      cases hren : osRename (filename ++ ".new") filename wb with
      | mk x wd =>
        rw [hren] at herr
        cases x with
        | none => exact absurd rfl herr
        | some e =>
          refine ⟨?_, fun _ hce _ => ?_⟩
          · rw [osRename_eq_err hren, hcf.1 filename hne, osRemove_frame _ _ _ hne, hf]
          · rw [hb] at hce
            simp at hce

/-- C13 amended, at a concrete input: `Rekey` of the sample container while the
close of the temp file (the thirteenth checked call) fails. -/
theorem rekey_failure_cleanup_witness :
    (Rekey sampleCrypto "f" [1, 2, 3] [4, 5]
        (sampleStored (List.replicate 12 false ++ [true]))).2.files "f" =
      (sampleStored (List.replicate 12 false ++ [true])).files "f" ∧
    (Rekey sampleCrypto "f" [1, 2, 3] [4, 5]
        (sampleStored (List.replicate 12 false ++ [true]))).2.files ("f" ++ ".new") = none :=
  ⟨(rekey_failure_cleanup sampleCrypto "f" [1, 2, 3] [4, 5]
      (sampleStored (List.replicate 12 false ++ [true])) (by decide)).1,
    (rekey_failure_cleanup sampleCrypto "f" [1, 2, 3] [4, 5]
      (sampleStored (List.replicate 12 false ++ [true])) (by decide)).2
      (by decide) (by decide) (by decide)⟩

/-! ## Layout, key derivation, decoding -/

theorem fill_toList_of_length {n : Nat} (l : List Byte) (h : l.length = n) :
    (fill n l).toList = l := by
  show l.take n ++ List.replicate (n - l.length) 0 = l
  rw [h, List.take_of_length_le (le_of_eq h)]
  simp

theorem encode_fields (salt : Bytes 32) (nonce : Bytes 24) (box : List Byte) :
    (encode salt nonce box).take 1 = [Version] ∧
      ((encode salt nonce box).drop 1).take 32 = salt.toList ∧
      ((encode salt nonce box).drop 33).take 24 = nonce.toList ∧
      (encode salt nonce box).drop 57 = box ∧
      (encode salt nonce box).length = 57 + box.length := by
  have hs : salt.toList.length = 32 := salt.2
  have hn : nonce.toList.length = 24 := nonce.2
  have h33 : ([Version] ++ salt.toList).length = 33 := by simp [hs]
  have h57 : ([Version] ++ salt.toList ++ nonce.toList).length = 57 := by simp [hs, hn]
  unfold encode
  refine ⟨by simp, ?_, ?_, ?_, ?_⟩
  · rw [List.append_assoc, List.append_assoc, List.drop_left' (by simp),
      List.take_left' hs]
  · rw [List.append_assoc ([Version] ++ salt.toList), List.drop_left' h33, List.take_left' hn]
  · rw [List.drop_left' h57]
  · rw [List.length_append, h57]

/-- C16. Container layout: when no write fails, the bytes `s.save` appends to
the file are exactly `encode s.salt s.nonce (secretbox.Seal(data, s.nonce,
s.key))`, that is the byte 0x01, the 32 bytes of the salt, the 24 bytes of the
nonce and the sealed box, with nothing before, between or after them; the file
left by a successful `Save` or `Create` is exactly these bytes. The key is not
one of the emitted fields: it enters the output only as the key under which the
box is sealed. -/
theorem container_layout (c : Crypto) (s : State) (data : List Byte) :
    (∀ (fp : String) (w v : World), s.save c fp data w = (none, v) →
      v.files fp = some ((w.files fp).getD [] ++
        encode s.salt s.nonce (c.Seal data s.nonce s.key))) ∧
    (∀ w : World, (s.Save c data w).1 = none →
      (s.Save c data w).2.files s.filename =
        some (encode s.salt s.nonce (c.Seal data s.nonce s.key))) ∧
    (∀ (filename : String) (X : List Byte) (w : World) (t : State),
      (Create c filename X data w).1 = ⟨some t, none⟩ →
      (Create c filename X data w).2.files filename =
        some (encode t.salt t.nonce (c.Seal data t.nonce t.key))) ∧
    (encode s.salt s.nonce (c.Seal data s.nonce s.key)).take 1 = [0x01] ∧
    ((encode s.salt s.nonce (c.Seal data s.nonce s.key)).drop 1).take 32 = s.salt.toList ∧
    ((encode s.salt s.nonce (c.Seal data s.nonce s.key)).drop 33).take 24 = s.nonce.toList ∧
    (encode s.salt s.nonce (c.Seal data s.nonce s.key)).drop 57 = c.Seal data s.nonce s.key := by
  obtain ⟨e1, e2, e3, e4, _⟩ := encode_fields s.salt s.nonce (c.Seal data s.nonce s.key)
  refine ⟨?_, ?_, ?_, e1, e2, e3, e4⟩
  · intro fp w v h
    rw [(save_eq_ok h).1, setFile_same]
    rfl
  · intro w h
    rw [(Save_eq_ok (v := (s.Save c data w).2) (Prod.ext h rfl)).1, setFile_same]
    rfl
  · intro filename X w t h
    obtain ⟨_, hst, hfiles, _⟩ := Create_eq_ok (r := (Create c filename X data w).1)
      (v := (Create c filename X data w).2) rfl (by rw [h])
    rw [h] at hst
    simp only [Option.some.injEq] at hst
    rw [hfiles, setFile_same, ← hst]
    rfl

/-- C16 at a concrete input: the 75 bytes `Create` leaves in the sample world. -/
theorem container_layout_witness :
    (Create sampleCrypto "f" [1, 2, 3] [10, 20] sampleWorld).2.files "f" =
      some (encode (freshState sampleCrypto "f" [1, 2, 3] sampleRand).salt
        (freshState sampleCrypto "f" [1, 2, 3] sampleRand).nonce
        (sampleCrypto.Seal [10, 20] (freshState sampleCrypto "f" [1, 2, 3] sampleRand).nonce
          (freshState sampleCrypto "f" [1, 2, 3] sampleRand).key)) :=
  (container_layout sampleCrypto (freshState sampleCrypto "f" [1, 2, 3] sampleRand)
    [10, 20]).2.2.1 "f" [1, 2, 3] sampleWorld _ (by decide)

/-- C17. Fixed KDF parameters: the State of a successful `Create` and the State
of a successful `Open` both carry the key
`argon2.IDKey(passphrase, salt, 1, 64*1024, 4, 32)` (copied into the 32-byte
key array), so for the same passphrase and the same salt `Open` derives the key
`Create` derived. -/
theorem kdf_fixed_parameters (c : Crypto) (X : List Byte)
    (path1 : String) (P1 : List Byte) (w1 : World) (s1 : State)
    (path2 : String) (P2 : List Byte) (w2 : World) (s2 : State)
    (h1 : (Create c path1 X P1 w1).1 = ⟨some s1, none⟩)
    (h2 : (Open c path2 X w2).1 = ⟨some s2, P2, none⟩) :
    s1.key = fill 32 (c.IDKey X s1.salt.toList 1 (64 * 1024) 4 32) ∧
      s2.key = fill 32 (c.IDKey X s2.salt.toList 1 (64 * 1024) 4 32) ∧
      (s1.salt = s2.salt → s1.key = s2.key) := by
  obtain ⟨_, k1⟩ := state_of_Create_or_Open (Or.inl ⟨P1, h1⟩)
  obtain ⟨_, k2⟩ := state_of_Create_or_Open (Or.inr ⟨P2, h2⟩)
  refine ⟨k1, k2, fun hs => ?_⟩
  rw [k1, k2, hs]

/-- C17 at a concrete input: `Create` in the sample world, then `Open` of the
file it wrote. -/
theorem kdf_fixed_parameters_witness :
    (freshState sampleCrypto "f" [1, 2, 3] sampleRand).key =
      fill 32 (sampleCrypto.IDKey [1, 2, 3]
        (freshState sampleCrypto "f" [1, 2, 3] sampleRand).salt.toList 1 (64 * 1024) 4 32) :=
  (kdf_fixed_parameters sampleCrypto [1, 2, 3] "f" [10, 20] sampleWorld
    (freshState sampleCrypto "f" [1, 2, 3] sampleRand) "f" [10, 20] (sampleStored [])
    (freshState sampleCrypto "f" [1, 2, 3] sampleRand) (by decide) (by decide)).1

theorem Create_eq_ok_len {c : Crypto} {fn : String} {X P : List Byte} {w v : World}
    {r : CreateResult} (h : Create c fn X P w = (r, v)) (herr : r.err = none) :
    56 ≤ w.rand.length := by
  unfold Create at h
  split at h
  · simp only [Prod.mk.injEq] at h
    rw [← h.1] at herr
    simp at herr
  · split at h
    · simp only [Prod.mk.injEq] at h
      rw [← h.1] at herr
      simp at herr
    · rename_i salt wa ha
      split at h
      · simp only [Prod.mk.injEq] at h
        rw [← h.1] at herr
        simp at herr
      · rename_i nonce wb hb
        obtain ⟨la, _, _, ra, _⟩ := randRead_eq_ok ha
        obtain ⟨lb, _, _, _, _⟩ := randRead_eq_ok hb
        rw [ra, List.length_drop] at lb
        omega

theorem Rekey_eq_ok_full {c : Crypto} {fn : String} {X Y : List Byte} {w v : World}
    (h : Rekey c fn X Y w = (none, v)) :
    56 ≤ w.rand.length ∧ v.rand = w.rand.drop 56 ∧ (Open c fn X w).1.err = none ∧
      v.files = setFile (setFile w.files (fn ++ ".new") none) fn
        (some (container c (freshState c (fn ++ ".new") Y w.rand) (Open c fn X w).1.data)) := by
  unfold Rekey at h
  split at h
  · simp at h
  · rename_i st data wa ha
    obtain ⟨_, qa, _⟩ := Open_eq_ok ha rfl
    obtain ⟨fa, ra⟩ := files_of_calm_eq qa
    dsimp only at h
    have r0 := osRemove_rand (fn ++ ".new") wa
    split at h
    · simp at h
    · rename_i st2 wb hb
      obtain ⟨_, _, fb, rb⟩ := Create_eq_ok hb rfl
      have hlen := Create_eq_ok_len hb rfl
      obtain ⟨content, hcont, fc, rc⟩ := osRename_eq_ok h
      rw [fb, r0, ra, osRemove_setFile, fa] at hcont fc
      simp only [setFile_same, setFile_setFile, Option.some.injEq] at hcont fc
      subst hcont
      rw [r0, ra] at hlen rb
      rw [ha]
      exact ⟨hlen, by rw [rc, rb], rfl, fc⟩

/-- C4. Rekey revokes the old passphrase: for passphrases `X` and `Y` with `Y`
different from `X`, after a successful `Rekey(path, X, Y)` a following
`Open(path, X)` that meets no I/O fault returns the decryption-failure error,
no State and no plaintext, provided the primitives tell a wrong passphrase
apart as the spec says: no other passphrase derives the key of `Y` for the
fresh salt, and the new box (the recovered plaintext sealed under the fresh
nonce and the new key) opens under no other key. -/
theorem rekey_revokes_old_passphrase (c : Crypto) (w : World) (path : String)
    (X Y : List Byte) (hne : Y ≠ X) (hrekey : (Rekey c path X Y w).1 = none)
    (hkdf : c.KeyOnlyFrom Y (freshState c (path ++ ".new") Y w.rand).salt)
    (hbox : c.OpensOnlyUnder
      (c.Seal (Open c path X w).1.data (freshState c (path ++ ".new") Y w.rand).nonce
        (freshState c (path ++ ".new") Y w.rand).key)
      (freshState c (path ++ ".new") Y w.rand).nonce
      (freshState c (path ++ ".new") Y w.rand).key) :
    (Open c path X (Rekey c path X Y w).2.calm).1 =
      ⟨none, [], some (Error.cannotDecrypt path)⟩ := by
  obtain ⟨_, _, _, hfiles⟩ := Rekey_eq_ok_full (v := (Rekey c path X Y w).2)
    (Prod.ext hrekey rfl)
  have hfile : (Rekey c path X Y w).2.calm.files path =
      some ([Version] ++ (freshState c (path ++ ".new") Y w.rand).salt.toList ++
        (freshState c (path ++ ".new") Y w.rand).nonce.toList ++
        c.Seal (Open c path X w).1.data (freshState c (path ++ ".new") Y w.rand).nonce
          (freshState c (path ++ ".new") Y w.rand).key) := by
    show (Rekey c path X Y w).2.files path = _
    rw [hfiles, setFile_same]
    rfl
  rw [Open_calm_container c path X _ rfl _ _ _ hfile, hbox _ (hkdf X hne.symm)]

/-- C4 at a concrete input: the container written under `[1, 2, 3]` with the
second sample primitives and rekeyed to `[4, 5]` no longer opens under
`[1, 2, 3]`. -/
theorem rekey_revokes_old_passphrase_witness :
    (Open keyedCrypto "f" [1, 2, 3]
      (Rekey keyedCrypto "f" [1, 2, 3] [4, 5]
        (Create keyedCrypto "f" [1, 2, 3] [10, 20] sampleWorld).2).2.calm).1 =
        ⟨none, [], some (Error.cannotDecrypt "f")⟩ :=
  rekey_revokes_old_passphrase keyedCrypto
    (Create keyedCrypto "f" [1, 2, 3] [10, 20] sampleWorld).2 "f" [1, 2, 3] [4, 5]
    (by decide) (by decide) (keyedCrypto_keyOnlyFrom _ _ (by decide))
    (keyedCrypto_opensOnlyUnder _ _ _)

/-- C19. Rekey builds a brand-new container: a successful
`Rekey(filename, old, new)` draws 56 bytes from the random source, and the file
it leaves at `filename` is the byte 0x01, then the first 32 of those bytes as
salt, then the next 24 as nonce, then the plaintext recovered by its `Open`,
sealed under that nonce and the key `argon2.IDKey(new, fresh salt, ...)`.
Nothing of the previous container's salt or nonce enters the new file. -/
theorem rekey_fresh_container (c : Crypto) (filename : String) (X Y : List Byte) (w : World)
    (h : (Rekey c filename X Y w).1 = none) :
    56 ≤ w.rand.length ∧
      (Rekey c filename X Y w).2.rand = w.rand.drop 56 ∧
      (Rekey c filename X Y w).2.files filename =
        some ([Version] ++ w.rand.take 32 ++ (w.rand.drop 32).take 24 ++
          c.Seal (Open c filename X w).1.data (fill 24 ((w.rand.drop 32).take 24))
            (fill 32 (c.IDKey Y (w.rand.take 32) 1 (64 * 1024) 4 32))) := by
  obtain ⟨hlen, hrand, _, hfiles⟩ := Rekey_eq_ok_full (v := (Rekey c filename X Y w).2)
    (Prod.ext h rfl)
  refine ⟨hlen, hrand, ?_⟩
  have h32 : (w.rand.take 32).length = 32 := by
    rw [List.length_take]
    omega
  have h24 : ((w.rand.drop 32).take 24).length = 24 := by
    rw [List.length_take, List.length_drop]
    omega
  rw [hfiles, setFile_same]
  unfold container freshState deriveKey
  dsimp only
  rw [fill_toList_of_length _ h32, fill_toList_of_length _ h24]

/-- C19 at a concrete input: the sample container rekeyed to `[4, 5]`; the new
salt and nonce are bytes 56-87 and 88-111 of the sample entropy. -/
theorem rekey_fresh_container_witness :
    56 ≤ (sampleStored []).rand.length ∧
      (Rekey sampleCrypto "f" [1, 2, 3] [4, 5] (sampleStored [])).2.rand =
        (sampleStored []).rand.drop 56 ∧
      (Rekey sampleCrypto "f" [1, 2, 3] [4, 5] (sampleStored [])).2.files "f" =
        some ([Version] ++ (sampleStored []).rand.take 32 ++
          ((sampleStored []).rand.drop 32).take 24 ++
          sampleCrypto.Seal (Open sampleCrypto "f" [1, 2, 3] (sampleStored [])).1.data
            (fill 24 (((sampleStored []).rand.drop 32).take 24))
            (fill 32 (sampleCrypto.IDKey [4, 5] ((sampleStored []).rand.take 32)
              1 (64 * 1024) 4 32))) :=
  rekey_fresh_container sampleCrypto "f" [1, 2, 3] [4, 5] (sampleStored []) (by decide)

theorem fileRead_eq_ok_bytes {n : Nat} {rd bs rd1 : List Byte} {w v : World}
    (h : fileRead n rd w = ((bs, rd1, none), v)) : bs = rd.take n ∧ rd1 = rd.drop n := by
  unfold fileRead at h
  split at h
  · simp at h
  · split at h
    · simp at h
    · simp only [Prod.mk.injEq, and_true] at h
      exact ⟨h.1.1.symm, h.1.2.symm⟩

theorem ioutilReadAll_eq_ok_bytes {rd enc : List Byte} {w v : World}
    (h : ioutilReadAll rd w = ((enc, none), v)) : enc = rd := by
  unfold ioutilReadAll at h
  split at h
  · simp at h
  · simp only [Prod.mk.injEq, and_true] at h
    exact h.1.symm

theorem Open_body_decode {c : Crypto} {fn : String} {X rd : List Byte} {w v : World}
    {r : OpenResult} (h : Open.body c fn X rd w = (r, v)) (herr : r.err = none) :
    ∃ s, r.state = some s ∧ s.filename = fn ∧
      s.salt = fill 32 ((rd.drop 1).take 32) ∧
      s.nonce = fill 24 ((rd.drop 33).take 24) ∧
      s.key = deriveKey c X s.salt ∧
      c.Open (rd.drop 57) s.nonce s.key = some r.data ∧
      (fill 1 (rd.take 1)).head = Version := by
  unfold Open.body at h
  split at h
  · simp only [Prod.mk.injEq] at h
    rw [← h.1] at herr
    simp at herr
  · rename_i version rd1 wa ha
    split at h
    · simp only [Prod.mk.injEq] at h
      rw [← h.1] at herr
      simp at herr
    · rename_i hver
      split at h
      · simp only [Prod.mk.injEq] at h
        rw [← h.1] at herr
        simp at herr
      · rename_i salt rd2 wb hb
        split at h
        · simp only [Prod.mk.injEq] at h
          rw [← h.1] at herr
          simp at herr
        · rename_i nonce rd3 wc hc
          dsimp only at h
          split at h
          · simp only [Prod.mk.injEq] at h
            rw [← h.1] at herr
            simp at herr
          · rename_i enc wd hd
            split at h
            · simp only [Prod.mk.injEq] at h
              rw [← h.1] at herr
              simp at herr
            · rename_i data hdata
              simp only [Prod.mk.injEq] at h
              obtain ⟨hr, _⟩ := h
              subst hr
              obtain ⟨a1, a2⟩ := fileRead_eq_ok_bytes ha
              obtain ⟨b1, b2⟩ := fileRead_eq_ok_bytes hb
              obtain ⟨c1, c2⟩ := fileRead_eq_ok_bytes hc
              have d1 := ioutilReadAll_eq_ok_bytes hd
              subst a1 a2 b1 b2 c1 c2 d1
              simp only [List.drop_drop] at hdata ⊢
              simp only [ne_eq, Decidable.not_not] at hver
              exact ⟨_, rfl, rfl, rfl, rfl, rfl, hdata, hver⟩

/-- C20. Open decodes the container it is given: if `Open(filename, passphrase)`
succeeds on a file of at least 57 bytes, then the file starts with 0x01, the
returned State has the argument as filename, file bytes 1-32 as salt, file
bytes 33-56 as nonce and `argon2.IDKey(passphrase, salt, 1, 64*1024, 4, 32)` as
key, and the returned data is what `secretbox.Open` returns on file bytes 57 to
end-of-file with that nonce and key. -/
theorem open_decodes (c : Crypto) (filename : String) (passphrase : List Byte) (w : World)
    (content : List Byte) (hfile : w.files filename = some content)
    (hlen : 57 ≤ content.length) (s : State) (data : List Byte)
    (hopen : (Open c filename passphrase w).1 = ⟨some s, data, none⟩) :
    content.take 1 = [0x01] ∧
      s.filename = filename ∧
      s.salt.toList = (content.drop 1).take 32 ∧
      s.nonce.toList = (content.drop 33).take 24 ∧
      s.key = fill 32 (c.IDKey passphrase s.salt.toList 1 (64 * 1024) 4 32) ∧
      c.Open (content.drop 57) s.nonce s.key = some data := by
  have hbody : ∃ v, Open.body c filename passphrase content
      (osOpen filename w).2 = (⟨some s, data, none⟩, v) := by
    unfold Open at hopen
    split at hopen
    · simp at hopen
    · rename_i rd wa ha
      obtain ⟨hrd, _⟩ := osOpen_eq_ok ha
      rw [hfile] at hrd
      simp only [Option.some.injEq] at hrd
      subst hrd
      rw [ha]
      dsimp only at hopen ⊢
      exact ⟨_, Prod.ext hopen rfl⟩
  obtain ⟨v, hb⟩ := hbody
  obtain ⟨t, ht, hfn, hsalt, hnonce, hkey, hdata, hver⟩ := Open_body_decode hb rfl
  simp only [Option.some.injEq] at ht
  subst ht
  have h32 : ((content.drop 1).take 32).length = 32 := by
    rw [List.length_take, List.length_drop]
    omega
  have h24 : ((content.drop 33).take 24).length = 24 := by
    rw [List.length_take, List.length_drop]
    omega
  refine ⟨?_, hfn, ?_, ?_, hkey, hdata⟩
  · cases content with
    | nil => simp at hlen
    | cons b rest =>
      have hb2 : b = Version := hver
      rw [hb2]
      rfl
  · rw [hsalt, fill_toList_of_length _ h32]
  · rw [hnonce, fill_toList_of_length _ h24]

/-- C20 at a concrete input: `Open` of the 75-byte sample container. -/
theorem open_decodes_witness :
    (container sampleCrypto (freshState sampleCrypto "f" [1, 2, 3] sampleRand)
        [10, 20]).take 1 = [0x01] ∧
      (freshState sampleCrypto "f" [1, 2, 3] sampleRand).filename = "f" ∧
      (freshState sampleCrypto "f" [1, 2, 3] sampleRand).salt.toList =
        ((container sampleCrypto (freshState sampleCrypto "f" [1, 2, 3] sampleRand)
          [10, 20]).drop 1).take 32 ∧
      (freshState sampleCrypto "f" [1, 2, 3] sampleRand).nonce.toList =
        ((container sampleCrypto (freshState sampleCrypto "f" [1, 2, 3] sampleRand)
          [10, 20]).drop 33).take 24 ∧
      (freshState sampleCrypto "f" [1, 2, 3] sampleRand).key =
        fill 32 (sampleCrypto.IDKey [1, 2, 3]
          (freshState sampleCrypto "f" [1, 2, 3] sampleRand).salt.toList 1 (64 * 1024) 4 32) ∧
      sampleCrypto.Open
        ((container sampleCrypto (freshState sampleCrypto "f" [1, 2, 3] sampleRand)
          [10, 20]).drop 57)
        (freshState sampleCrypto "f" [1, 2, 3] sampleRand).nonce
        (freshState sampleCrypto "f" [1, 2, 3] sampleRand).key = some [10, 20] :=
  open_decodes sampleCrypto "f" [1, 2, 3] (sampleStored [])
    (container sampleCrypto (freshState sampleCrypto "f" [1, 2, 3] sampleRand) [10, 20])
    (by decide) (by decide) (freshState sampleCrypto "f" [1, 2, 3] sampleRand) [10, 20]
    (by decide)

/-! ## Results and errors of `Open` -/

theorem Open_calm_general (c : Crypto) (fn : String) (X : List Byte) (w : World)
    (hq : w.faults = []) (content : List Byte) (hfile : w.files fn = some content)
    (hver : content.head? = some Version) (hlen : 34 ≤ content.length) :
    (Open c fn X w).1 =
      match c.Open (content.drop 57) (fill 24 ((content.drop 33).take 24))
          (deriveKey c X (fill 32 ((content.drop 1).take 32))) with
      | none => ⟨none, [], some (Error.cannotDecrypt fn)⟩
      | some d => ⟨some ⟨fn, fill 32 ((content.drop 1).take 32),
          fill 24 ((content.drop 33).take 24),
          deriveKey c X (fill 32 ((content.drop 1).take 32))⟩, d, none⟩ := by
  have h0 : content ≠ [] := by
    intro h
    rw [h] at hlen
    simp at hlen
  have h1 : content.drop 1 ≠ [] := by
    intro h
    rw [List.drop_eq_nil_iff] at h
    omega
  have h2 : (content.drop 1).drop 32 ≠ [] := by
    intro h
    rw [List.drop_drop, List.drop_eq_nil_iff] at h
    omega
  have hv : ¬ (fill 1 (content.take 1)).head ≠ Version := by
    cases content with
    | nil => exact absurd rfl h0
    | cons b rest =>
      simp only [List.head?_cons, Option.some.injEq] at hver
      rw [fill_one_head, hver]
      simp
  unfold Open
  rw [osOpen_calm w hq fn content hfile]
  dsimp only
  unfold Open.body
  rw [fileRead_calm w hq 1 content h0]
  dsimp only
  rw [if_neg hv, fileRead_calm w hq 32 _ h1]
  dsimp only
  rw [fileRead_calm w hq 24 _ h2]
  dsimp only
  rw [ioutilReadAll_calm w hq]
  dsimp only
  simp only [List.drop_drop]
  cases c.Open (List.drop 57 content) (fill 24 (List.take 24 (List.drop 33 content)))
      (deriveKey c X (fill 32 (List.take 32 (List.drop 1 content)))) <;> rfl

/-- C21. No plaintext on failure: for every world (file content, fault
schedule) and passphrase, whenever `Open` returns a non-nil error the returned
State is nil and the returned data is nil; and whenever it returns a nil error
the returned State is non-nil. -/
theorem open_no_plaintext_on_failure (c : Crypto) (filename : String)
    (passphrase : List Byte) (w : World) :
    ((Open c filename passphrase w).1.err ≠ none →
      (Open c filename passphrase w).1.state = none ∧
        (Open c filename passphrase w).1.data = []) ∧
    ((Open c filename passphrase w).1.err = none →
      (Open c filename passphrase w).1.state ≠ none) := by
  constructor
  · intro herr
    rcases Open_shape c filename passphrase w with h | ⟨e, h⟩
    · exact absurd h herr
    · rw [h]
      exact ⟨rfl, rfl⟩
  · intro herr
    obtain ⟨_, _, s, hs, _, _⟩ := Open_eq_ok (r := (Open c filename passphrase w).1)
      (v := (Open c filename passphrase w).2) rfl herr
    rw [hs]
    simp

/-- C22. Authentication failure is undifferentiated: for every file with a
57-byte header that starts with 0x01, read without I/O fault, whenever
`secretbox.Open` rejects the box (file bytes 57 to end, possibly none) under
the stored nonce and the key derived from the passphrase and the stored salt,
`Open` returns the error `cannotDecrypt filename`, no State and no data. The
result mentions the filename only: not the passphrase, the salt, the nonce or
the ciphertext, so it is the same whatever made the verification fail. -/
theorem authentication_failure_undifferentiated (c : Crypto) (filename : String)
    (passphrase : List Byte) (w : World) (hq : w.faults = []) (content : List Byte)
    (hfile : w.files filename = some content) (hver : content.head? = some Version)
    (hlen : 57 ≤ content.length)
    (hfail : c.Open (content.drop 57) (fill 24 ((content.drop 33).take 24))
      (deriveKey c passphrase (fill 32 ((content.drop 1).take 32))) = none) :
    (Open c filename passphrase w).1 = ⟨none, [], some (Error.cannotDecrypt filename)⟩ := by
  rw [Open_calm_general c filename passphrase w hq content hfile hver (by omega), hfail]

/-- C22 at a concrete input: the sample container opened with the wrong
passphrase `[9]`. -/
theorem authentication_failure_undifferentiated_witness :
    (Open sampleCrypto "f" [9] (sampleStored [])).1 =
      ⟨none, [], some (Error.cannotDecrypt "f")⟩ :=
  authentication_failure_undifferentiated sampleCrypto "f" [9] (sampleStored []) rfl
    (container sampleCrypto (freshState sampleCrypto "f" [1, 2, 3] sampleRand) [10, 20])
    (by decide) (by decide) (by decide) (by decide)

/-- C25, what the code does instead: a file that starts with 0x01 and has 34 to
56 bytes (it ends inside the nonce) passes the three header reads, because
`fp.Read` reports a short read without error, and is then rejected by
`secretbox.Open` on the empty box: `Open` returns the decryption-failure error
`cannotDecrypt filename`, the error of a wrong passphrase. -/
theorem truncated_nonce_is_decrypt_failure (c : Crypto) (hshort : c.RejectsShort)
    (filename : String) (passphrase : List Byte) (w : World) (hq : w.faults = [])
    (content : List Byte) (hfile : w.files filename = some content)
    (hver : content.head? = some Version) (hlo : 34 ≤ content.length)
    (hhi : content.length ≤ 56) :
    (Open c filename passphrase w).1 = ⟨none, [], some (Error.cannotDecrypt filename)⟩ := by
  have hbox : content.drop 57 = [] := by
    rw [List.drop_eq_nil_iff]
    omega
  rw [Open_calm_general c filename passphrase w hq content hfile hver hlo, hbox,
    hshort [] _ _ (by simp [Overhead])]

/-- C25 at a concrete input: the 40-byte file of the sample world. -/
theorem truncated_nonce_is_decrypt_failure_witness :
    (Open sampleCrypto "h" [1, 2, 3] sampleShortWorld).1 =
      ⟨none, [], some (Error.cannotDecrypt "h")⟩ :=
  truncated_nonce_is_decrypt_failure sampleCrypto sampleCrypto_rejectsShort "h" [1, 2, 3]
    sampleShortWorld rfl (Version :: List.replicate 39 5) (by decide) (by decide) (by decide)
    (by decide)

/-- C28. Open is read-only: for every filename, passphrase, world and fault
schedule, whether `Open` succeeds or fails, the file system after the call is
the file system before it (and no entropy is consumed). -/
theorem open_read_only (c : Crypto) (filename : String) (passphrase : List Byte) (w : World) :
    (Open c filename passphrase w).2.files = w.files ∧
      (Open c filename passphrase w).2.rand = w.rand :=
  files_of_calm_eq (Open_frame c filename passphrase w)

/-! ## Size and invariant of the container file -/

theorem sampleCrypto_sealLength : sampleCrypto.SealLength := by
  intro d n k
  show (sampleTag d n k ++ d).length = d.length + Overhead
  rw [List.length_append, sampleTag_length]
  simp [Overhead]
  omega

theorem container_length (c : Crypto) (hlen : c.SealLength) (s : State) (P : List Byte) :
    (container c s P).length = 73 + P.length := by
  have h := (encode_fields s.salt s.nonce (c.Seal P s.nonce s.key)).2.2.2.2
  show (encode s.salt s.nonce (c.Seal P s.nonce s.key)).length = _
  rw [h, hlen]
  simp [Overhead]
  omega

/-- C23. Container size: given that a sealed box is the plaintext length plus
the 16-byte tag, the file left by a successful `Save(P)` or `Create(path, X,
P)` has exactly 1 + 32 + 24 + len(P) + 16 = 73 + len(P) bytes, and its region
from offset 57 on has len(P) + 16 bytes; an empty payload gives 73 bytes. -/
theorem container_size (c : Crypto) (hlen : c.SealLength) (P : List Byte) :
    (∀ (s : State) (w : World), (s.Save c P w).1 = none →
      ((s.Save c P w).2.files s.filename).map List.length = some (73 + P.length) ∧
      ((s.Save c P w).2.files s.filename).map (fun f => (f.drop 57).length) =
        some (P.length + 16)) ∧
    (∀ (path : String) (X : List Byte) (w : World), (Create c path X P w).1.err = none →
      ((Create c path X P w).2.files path).map List.length = some (73 + P.length) ∧
      ((Create c path X P w).2.files path).map (fun f => (f.drop 57).length) =
        some (P.length + 16)) := by
  have hdrop : ∀ s : State, ((container c s P).drop 57).length = P.length + 16 := by
    intro s
    rw [List.length_drop, container_length c hlen]
    omega
  constructor
  · intro s w h
    rw [(Save_eq_ok (v := (s.Save c P w).2) (Prod.ext h rfl)).1, setFile_same]
    simp only [Option.map_some', Option.some.injEq]
    exact ⟨container_length c hlen s P, hdrop s⟩
  · intro path X w h
    obtain ⟨_, _, hfiles, _⟩ := Create_eq_ok (r := (Create c path X P w).1)
      (v := (Create c path X P w).2) rfl h
    rw [hfiles, setFile_same]
    simp only [Option.map_some', Option.some.injEq]
    exact ⟨container_length c hlen _ P, hdrop _⟩

/-- C23 at a concrete input: `Create` with the empty payload in the sample
world leaves a 73-byte file. -/
theorem container_size_witness :
    ((Create sampleCrypto "f" [1, 2, 3] [] sampleWorld).2.files "f").map List.length =
      some (73 + ([] : List Byte).length) :=
  ((container_size sampleCrypto sampleCrypto_sealLength []).2 "f" [1, 2, 3] sampleWorld
    (by decide)).1

theorem container_mirrors (c : Crypto) (hc : c.SealOpen) (s : State) (P : List Byte)
    (w : World) (hfile : w.files s.filename = some (container c s P)) : s.Mirrors c w := by
  obtain ⟨_, e2, e3, e4, _⟩ := encode_fields s.salt s.nonce (c.Seal P s.nonce s.key)
  refine ⟨container c s P, P, hfile, e2, e3, ?_⟩
  show c.Open ((encode s.salt s.nonce (c.Seal P s.nonce s.key)).drop 57) s.nonce s.key = some P
  rw [e4, hc]

theorem Open_eq_ok_decode {c : Crypto} {fn : String} {X : List Byte} {w v : World}
    {r : OpenResult} (h : Open c fn X w = (r, v)) (herr : r.err = none) :
    ∃ content s, w.files fn = some content ∧ r.state = some s ∧ s.filename = fn ∧
      s.salt = fill 32 ((content.drop 1).take 32) ∧
      s.nonce = fill 24 ((content.drop 33).take 24) ∧
      s.key = deriveKey c X s.salt ∧
      c.Open (content.drop 57) s.nonce s.key = some r.data := by
  unfold Open at h
  split at h
  · simp only [Prod.mk.injEq] at h
    rw [← h.1] at herr
    simp at herr
  · rename_i rd wa ha
    obtain ⟨hrd, _⟩ := osOpen_eq_ok ha
    dsimp only at h
    simp only [Prod.mk.injEq] at h
    obtain ⟨hr, _⟩ := h
    obtain ⟨s, hs, hfn, hsalt, hnonce, hkey, hdata, _⟩ :=
      Open_body_decode (r := (Open.body c fn X rd wa).1) (v := (Open.body c fn X rd wa).2)
        rfl (by rw [hr]; exact herr)
    rw [hr] at hs hdata
    exact ⟨rd, s, hrd, hs, hfn, hsalt, hnonce, hkey, hdata⟩

theorem SaveAll_mirrors (c : Crypto) (hc : c.SealOpen) (s : State) :
    ∀ (saves : List (List Byte × List Bool)) (w v : World),
      s.Mirrors c w → s.SaveAll c saves w = some v → s.Mirrors c v := by
  intro saves
  induction saves with
  | nil =>
    intro w v hm h
    simp only [State.SaveAll, Option.some.injEq] at h
    rw [← h]
    exact hm
  | cons a rest ih =>
    intro w v _ h
    obtain ⟨data, φ⟩ := a
    unfold State.SaveAll at h
    split at h
    · rename_i u hu
      have hfile := (Save_eq_ok hu).1
      exact ih u v (container_mirrors c hc s data u (by rw [hfile, setFile_same])) h
    · simp at h

/-- C24. State mirrors the file: for a State `s` returned by a successful
`Create` or `Open`, in the world that call left and after any sequence of
successful `s.Save` calls (each under any fault schedule, no other writer in
between), the file at `s.filename` has `s.salt` as bytes 1-32 and `s.nonce` as
bytes 33-56, and its bytes from 57 on open under `s.nonce` and `s.key`. -/
theorem state_mirrors_file (c : Crypto) (hc : c.SealOpen) (hshort : c.RejectsShort)
    (path : String) (X : List Byte) (s : State) (w0 w1 : World)
    (hs : (∃ P, Create c path X P w0 = (⟨some s, none⟩, w1)) ∨
      (∃ P, Open c path X w0 = (⟨some s, P, none⟩, w1)))
    (saves : List (List Byte × List Bool)) (v : World)
    (hsaves : s.SaveAll c saves w1 = some v) : s.Mirrors c v := by
  apply SaveAll_mirrors c hc s saves w1 v ?_ hsaves
  rcases hs with ⟨P, h⟩ | ⟨P, h⟩
  · obtain ⟨_, hst, hfiles, _⟩ := Create_eq_ok h rfl
    simp only [Option.some.injEq] at hst
    subst hst
    exact container_mirrors c hc _ P w1 (by rw [hfiles]; exact setFile_same _ _ _)
  · obtain ⟨content, t, hfile, ht, hfn, hsalt, hnonce, _, hdata⟩ := Open_eq_ok_decode h rfl
    obtain ⟨_, qa, _⟩ := Open_eq_ok h rfl
    obtain ⟨fa, _⟩ := files_of_calm_eq qa
    simp only [Option.some.injEq] at ht
    subst ht
    have hbox : 16 ≤ (content.drop 57).length := by
      by_contra hlt
      rw [hshort _ _ _ (by simpa [Overhead] using hlt)] at hdata
      simp at hdata
    rw [List.length_drop] at hbox
    have h32 : ((content.drop 1).take 32).length = 32 := by
      rw [List.length_take, List.length_drop]
      omega
    have h24 : ((content.drop 33).take 24).length = 24 := by
      rw [List.length_take, List.length_drop]
      omega
    refine ⟨content, P, by rw [fa, hfn]; exact hfile, ?_, ?_, hdata⟩
    · rw [hsalt, fill_toList_of_length _ h32]
    · rw [hnonce, fill_toList_of_length _ h24]

/-- C24 at a concrete input: the State of `Create` in the sample world, after
two Saves in a row. -/
theorem state_mirrors_file_witness :
    ∃ v, (freshState sampleCrypto "f" [1, 2, 3] sampleRand).SaveAll sampleCrypto
        [([30], []), ([40, 50], [])]
        (Create sampleCrypto "f" [1, 2, 3] [10, 20] sampleWorld).2 = some v ∧
      (freshState sampleCrypto "f" [1, 2, 3] sampleRand).Mirrors sampleCrypto v :=
  ⟨_, rfl, state_mirrors_file sampleCrypto sampleCrypto_sealOpen sampleCrypto_rejectsShort
    "f" [1, 2, 3] (freshState sampleCrypto "f" [1, 2, 3] sampleRand) sampleWorld
    (Create sampleCrypto "f" [1, 2, 3] [10, 20] sampleWorld).2
    (Or.inl ⟨[10, 20], Prod.ext (by decide) rfl⟩) [([30], []), ([40, 50], [])] _ rfl⟩

/-! ## A State that outlives a Rekey -/

theorem Open_after_Save (c : Crypto) (s : State) (P2 Z : List Byte) (w : World)
    (hok : (s.Save c P2 w).1 = none) :
    (Open c s.filename Z (s.Save c P2 w).2.calm).1 =
      match c.Open (c.Seal P2 s.nonce s.key) s.nonce (deriveKey c Z s.salt) with
      | none => ⟨none, [], some (Error.cannotDecrypt s.filename)⟩
      | some d => ⟨some ⟨s.filename, s.salt, s.nonce, deriveKey c Z s.salt⟩, d, none⟩ := by
  obtain ⟨hfiles, _⟩ := Save_eq_ok (v := (s.Save c P2 w).2) (Prod.ext hok rfl)
  have hfile : (s.Save c P2 w).2.calm.files s.filename =
      some ([Version] ++ s.salt.toList ++ s.nonce.toList ++ c.Seal P2 s.nonce s.key) := by
    show (s.Save c P2 w).2.files s.filename = _
    rw [hfiles, setFile_same]
    rfl
  rw [Open_calm_container c s.filename Z _ rfl _ _ _ hfile]

/-- C26. A State obtained before a Rekey is stale: if `s` was returned by a
successful `Create(path, X, _)` or `Open(path, X)` and `Rekey(path, X, Y)` then
succeeds with `Y` different from `X`, a later successful `s.Save(P2)` leaves at
`path` the container of `P2` under the salt, nonce and key of `s`; afterwards
`Open(path, X)` succeeds and returns `P2` and the State `s`, and `Open(path, Y)`
returns the decryption-failure error: the rekey is undone. The cipher opens
what it sealed, and the primitives tell a wrong passphrase apart as the spec
says: no other passphrase derives the key of `X` for the old salt, and the box
written by the Save opens under no other key. -/
theorem stale_save_undoes_rekey (c : Crypto) (hc : c.SealOpen) (path : String)
    (X Y P2 : List Byte) (hne : Y ≠ X) (s : State) (w0 : World)
    (hs : (∃ P, (Create c path X P w0).1 = ⟨some s, none⟩) ∨
      (∃ P, (Open c path X w0).1 = ⟨some s, P, none⟩))
    (hkdf : c.KeyOnlyFrom X s.salt)
    (hbox : c.OpensOnlyUnder (c.Seal P2 s.nonce s.key) s.nonce s.key)
    (w : World) (_hrekey : (Rekey c path X Y w).1 = none) (φ : List Bool)
    (hsave : (s.Save c P2 ((Rekey c path X Y w).2.withFaults φ)).1 = none) :
    (s.Save c P2 ((Rekey c path X Y w).2.withFaults φ)).2.files path =
        some (container c s P2) ∧
      (Open c path X (s.Save c P2 ((Rekey c path X Y w).2.withFaults φ)).2.calm).1 =
        ⟨some s, P2, none⟩ ∧
      (Open c path Y (s.Save c P2 ((Rekey c path X Y w).2.withFaults φ)).2.calm).1 =
        ⟨none, [], some (Error.cannotDecrypt path)⟩ := by
  obtain ⟨hfn, hkey⟩ := state_of_Create_or_Open hs
  obtain ⟨hfiles, _⟩ := Save_eq_ok
    (v := (s.Save c P2 ((Rekey c path X Y w).2.withFaults φ)).2) (Prod.ext hsave rfl)
  have hX := Open_after_Save c s P2 X _ hsave
  have hY := Open_after_Save c s P2 Y _ hsave
  rw [hfn] at hX hY
  refine ⟨by rw [hfiles, hfn, setFile_same], ?_, ?_⟩
  · rw [hX, ← hkey, hc]
    subst hfn
    rfl
  · have hk : deriveKey c Y s.salt ≠ s.key := by
      rw [hkey]
      exact hkdf Y hne
    rw [hY, hbox _ hk]

/-- C26 at a concrete input: the container written under `[1, 2, 3]` with the
second sample primitives, rekeyed to `[4, 5]`, then saved with `[30]` through
the State `Create` returned: it opens under `[1, 2, 3]` again, and no longer
under `[4, 5]`. -/
theorem stale_save_undoes_rekey_witness :
    (Open keyedCrypto "f" [1, 2, 3]
      ((freshState keyedCrypto "f" [1, 2, 3] sampleRand).Save keyedCrypto [30]
        ((Rekey keyedCrypto "f" [1, 2, 3] [4, 5]
          (Create keyedCrypto "f" [1, 2, 3] [10, 20] sampleWorld).2).2.withFaults [])).2.calm).1
      = ⟨some (freshState keyedCrypto "f" [1, 2, 3] sampleRand), [30], none⟩ ∧
    (Open keyedCrypto "f" [4, 5]
      ((freshState keyedCrypto "f" [1, 2, 3] sampleRand).Save keyedCrypto [30]
        ((Rekey keyedCrypto "f" [1, 2, 3] [4, 5]
          (Create keyedCrypto "f" [1, 2, 3] [10, 20] sampleWorld).2).2.withFaults [])).2.calm).1
      = ⟨none, [], some (Error.cannotDecrypt "f")⟩ :=
  (stale_save_undoes_rekey keyedCrypto keyedCrypto_sealOpen "f" [1, 2, 3] [4, 5] [30]
    (by decide) (freshState keyedCrypto "f" [1, 2, 3] sampleRand) sampleWorld
    (Or.inl ⟨[10, 20], by decide⟩) (keyedCrypto_keyOnlyFrom _ _ (by decide))
    (keyedCrypto_opensOnlyUnder _ _ _)
    (Create keyedCrypto "f" [1, 2, 3] [10, 20] sampleWorld).2 (by decide) [] (by decide)).2

/-! ## Footprint of Save -/

theorem Save_err_files (c : Crypto) (s : State) (data : List Byte) (w : World)
    (herr : (s.Save c data w).1 ≠ none) :
    (∀ q, q ≠ s.filename ++ ".new" → (s.Save c data w).2.files q = w.files q) ∧
      (w.faults.count true ≤ 1 →
        (s.Save c data w).2.files (s.filename ++ ".new") = none ∨
        (s.Save c data w).2.files (s.filename ++ ".new") = some (container c s data)) := by
  have h0 := fun q hq => osRemove_frame (s.filename ++ ".new") q w hq
  have hT := osRemove_faults (s.filename ++ ".new") w
  have hle := osRemove_count (s.filename ++ ".new") w
  unfold State.Save at herr ⊢
  dsimp only at herr ⊢
  split
  · rename_i e wa ha
    refine ⟨fun q hq => by rw [osCreate_frame ha hq, h0 q hq], fun h1 => Or.inl ?_⟩
    have ca := (osCreate_count ha).2 (by simp)
    have hhead : w.faults.head? ≠ some true := by
      intro hh
      have hcount := count_tail_of_head _ hh
      rw [hT] at ca
      omega
    rw [osCreate_eq_err ha, osRemove_ok _ _ hhead, setFile_same]
  · rename_i wa ha
    have ca := (osCreate_count ha).1
    split
    · rename_i e wb hb
      have cb := (save_count hb).2 (by simp)
      have cc := fileClose_count_snd wb
      refine ⟨fun q hq => ?_, fun h1 => Or.inl (osRemove_of_count_zero _ _ (by omega))⟩
      rw [osRemove_frame _ _ _ hq, fileClose_files, save_frame hb hq, osCreate_frame ha hq,
        h0 q hq]
    · rename_i wb hb
      have cb := (save_count hb).1
      split
      · rename_i e wc hc
        have cc := (fileClose_count hc).2 (by simp)
        refine ⟨fun q hq => ?_, fun h1 => Or.inl (osRemove_of_count_zero _ _ (by omega))⟩
        rw [osRemove_frame _ _ _ hq, fileClose_frame hc, save_frame hb hq,
          osCreate_frame ha hq, h0 q hq]
      · rename_i wc hc
        rw [ha] at herr
        dsimp only at herr
        rw [hb] at herr
        dsimp only at herr
        rw [hc] at herr
        dsimp only at herr
        cases hren : osRename (s.filename ++ ".new") s.filename wc with
        | mk x wd =>
          rw [hren] at herr
          cases x with
          | none => exact absurd rfl herr
          | some e =>
            refine ⟨fun q hq => ?_, fun _ => Or.inr ?_⟩
            · rw [osRename_eq_err hren, fileClose_frame hc, save_frame hb hq,
                osCreate_frame ha hq, h0 q hq]
            · rw [osRename_eq_err hren, fileClose_frame hc, (save_eq_ok hb).1, setFile_same,
                (osCreate_eq_ok ha).1, setFile_same]
              rfl

/-- C27 as stated fails when the first `os.Remove` fails: take the sample
container at `"f"` and an old temp file `"f.new"` holding the byte 7, and let
the first two checked calls of `Save` (its `os.Remove` and its `os.Create` of
the temp file) fail. `Save` returns the I/O error and the old temp file is
still there. -/
theorem save_failed_remove_keeps_old_temp :
    ((freshState sampleCrypto "f" [1, 2, 3] sampleRand).Save sampleCrypto [30]
      (World.mk (setFile (sampleStored []).files "f.new" (some [7])) [] [true, true])).1 =
        some Error.fault ∧
    ((freshState sampleCrypto "f" [1, 2, 3] sampleRand).Save sampleCrypto [30]
      (World.mk (setFile (sampleStored []).files "f.new" (some [7])) []
        [true, true])).2.files "f.new" = some [7] := by
  decide

/-- C27, amended. Filesystem footprint of Save. A successful `s.Save(data)`
leaves the file system as it was except that `s.filename` holds the new
container and nothing exists at `s.filename+".new"`. When `Save` fails, every
file other than the temp file (`s.filename` included) is unchanged, and if at
most one I/O fault is pending the temp path is empty or holds the complete new
container (after a failed rename). A file that existed at `s.filename+".new"`
before the call is deleted, also when `Save` fails later, provided the
`os.Remove` at the start, whose error `Save` ignores, does not fail: the call
then behaves exactly as in the world without that file. -/
theorem save_footprint (c : Crypto) (s : State) (data : List Byte) (w : World) :
    ((s.Save c data w).1 = none →
      (s.Save c data w).2.files =
        setFile (setFile w.files (s.filename ++ ".new") none) s.filename
          (some (container c s data)) ∧
      (s.Save c data w).2.files (s.filename ++ ".new") = none) ∧
    ((s.Save c data w).1 ≠ none →
      (∀ q, q ≠ s.filename ++ ".new" → (s.Save c data w).2.files q = w.files q) ∧
      (w.faults.count true ≤ 1 →
        (s.Save c data w).2.files (s.filename ++ ".new") = none ∨
        (s.Save c data w).2.files (s.filename ++ ".new") = some (container c s data))) ∧
    (w.faults.head? ≠ some true →
      s.Save c data w =
        s.Save c data
          (World.mk (setFile w.files (s.filename ++ ".new") none) w.rand w.faults)) := by
  refine ⟨fun h => ?_, Save_err_files c s data w, fun hhead => ?_⟩
  · obtain ⟨hfiles, _⟩ := Save_eq_ok (v := (s.Save c data w).2) (Prod.ext h rfl)
    refine ⟨hfiles, ?_⟩
    rw [hfiles, setFile_other _ _ _ _ (tmpfile_ne s.filename), setFile_same]
  · unfold State.Save
    dsimp only
    rw [osRemove_snd_ok _ w hhead,
      osRemove_snd_ok _ (World.mk (setFile w.files (s.filename ++ ".new") none) w.rand
        w.faults) hhead]
    simp only [setFile_setFile]

end Storage

/-! # Theorems about `config/config.go` -/

namespace Config

/-- C30. `LastAccount` returns nil if and only if `h.Accounts` is nil or empty;
otherwise it returns the pointer to the element at index `len(h.Accounts)-1`,
which is the last element; so after `h.Accounts = append(h.Accounts, a)` the
pointer `LastAccount` returns refers to `a`. -/
theorem lastAccount_spec (h : Hill) (a : Account) :
    (h.LastAccount = none ↔ h.Accounts = []) ∧
    (h.Accounts ≠ [] → h.LastAccount = some (h.Accounts.length - 1) ∧
      h.deref h.LastAccount = h.Accounts.getLast?) ∧
    (h.appendAccount a).LastAccount = some h.Accounts.length ∧
    (h.appendAccount a).deref (h.appendAccount a).LastAccount = some a := by
  have hiff : ∀ g : Hill, g.Accounts = [] ∨ g.Accounts.length = 0 ↔ g.Accounts = [] := by
    intro g
    constructor
    · rintro (h1 | h1)
      · exact h1
      · exact List.length_eq_zero.mp h1
    · exact fun h1 => Or.inl h1
  refine ⟨?_, ?_, ?_, ?_⟩
  · unfold Hill.LastAccount
    rw [if_congr (hiff h) rfl rfl]
    by_cases hn : h.Accounts = [] <;> simp [hn]
  · intro hne
    have hl : h.LastAccount = some (h.Accounts.length - 1) := by
      unfold Hill.LastAccount
      rw [if_neg (fun hc => hne ((hiff h).mp hc))]
    refine ⟨hl, ?_⟩
    rw [hl]
    show h.Accounts[h.Accounts.length - 1]? = h.Accounts.getLast?
    rw [List.getLast?_eq_getElem?]
  · unfold Hill.LastAccount Hill.appendAccount
    simp
  · have hl : (h.appendAccount a).LastAccount = some h.Accounts.length := by
      unfold Hill.LastAccount Hill.appendAccount
      simp
    rw [hl]
    show (h.Accounts ++ [a])[h.Accounts.length]? = some a
    simp

end Config
